import Mathlib

/-!
Verification of the flashblocks websocket proxy admission layer.

The development embeds, at the level of lists of characters and bytes, the
functions of `src/server.rs` (`extract_addr`, `websocket_handler`,
`websocket_handler_with_key`, `handle_websocket_connection`) and the startup
sequence of `src/main.rs`, together with the parts of the Rust standard
library they lean on: `IpAddr`'s `FromStr` parser and `Display` printer,
`str::split` / `str::trim`, `HeaderValue::to_str`, and `serde_json`'s
compact rendering of `json!({"message": ...})` bodies.

Strings are modelled as `List Char`; header values as `List Nat` (bytes);
machine integers as `Nat` with the checked-arithmetic bounds of the source
made explicit.
-/

namespace WsProxy

/-! ## Characters and digits -/

/-- `char::to_digit(radix)` from Rust core: the value of an ASCII digit or
letter, accepted only when strictly below the radix. -/
def digitVal (radix : Nat) (c : Char) : Option Nat :=
  let v : Option Nat :=
    if '0' ≤ c ∧ c ≤ '9' then some (c.toNat - '0'.toNat)
    else if 'a' ≤ c ∧ c ≤ 'z' then some (c.toNat - 'a'.toNat + 10)
    else if 'A' ≤ c ∧ c ≤ 'Z' then some (c.toNat - 'A'.toNat + 10)
    else none
  match v with
  | some d => if d < radix then some d else none
  | none => none

/-- The character for digit value `d` (lower case letters above 9), as
produced by Rust's `{:x}` and decimal formatting. -/
def digitChar (d : Nat) : Char :=
  if d < 10 then Char.ofNat ('0'.toNat + d) else Char.ofNat ('a'.toNat + (d - 10))

/-- The base-`radix` digits of `n`, most significant first, in front of
`acc`; no leading zeros (a lone `0` for zero). Structural recursion on a
fuel argument keeps the definition kernel-reducible; a starting fuel of
`n` never runs out, and the `radix < 2` guard is never taken at the
radixes 10 and 16 used below. -/
def digitsCore (radix : Nat) : Nat → Nat → List Char → List Char
  | 0, n, acc => digitChar n :: acc
  | fuel + 1, n, acc =>
    if n < radix ∨ radix < 2 then digitChar n :: acc
    else digitsCore radix fuel (n / radix) (digitChar (n % radix) :: acc)

/-- The value accumulated by the digit loop of `read_number` over a run
of digit characters, starting from `a`. -/
def valFrom (radix : Nat) : Nat → List Char → Nat
  | a, [] => a
  | a, c :: cs => valFrom radix (a * radix + (digitVal radix c).getD 0) cs

/-- Decimal rendering of a `u8` octet, as in `Ipv4Addr`'s `Display`. -/
def decStr (n : Nat) : List Char := digitsCore 10 n n []

/-- Lower-case hex rendering of a `u16` group, as in `Ipv6Addr`'s
`Display` (`{:x}`). -/
def hexStr (n : Nat) : List Char := digitsCore 16 n n []

/-! ## The Rust `core::net` parser (`Parser`), on `List Char` with the
unread remainder threaded explicitly; a `none` result is a parse failure
with the state rolled back (`read_atomically`). -/

/-- The digit-reading loop of `read_number`: consume digits, with the
checked arithmetic of the carrying integer type (`cap` is `u8::MAX` or
`u16::MAX`) and the `max_digits` bound applied as in the source. Returns
the accumulated value, the number of digits consumed and the rest. -/
def readNumLoop (radix cap maxDigits : Nat) : Nat → Nat → List Char → Option (Nat × Nat × List Char)
  | acc, count, [] => some (acc, count, [])
  | acc, count, c :: cs =>
    match digitVal radix c with
    | none => some (acc, count, c :: cs)
    | some d =>
      if acc * radix + d > cap then none
      else if count + 1 > maxDigits then none
      else readNumLoop radix cap maxDigits (acc * radix + d) (count + 1) cs

/-- Rust `Parser::read_number(radix, Some(max_digits), allow_zero_prefix)`
at a bounded unsigned type with maximum `cap`. -/
def readNumber (radix maxDigits : Nat) (allowZero : Bool) (cap : Nat) (s : List Char) :
    Option (Nat × List Char) :=
  let leadZero : Bool := s.head? = some '0'
  match readNumLoop radix cap maxDigits 0 0 s with
  | none => none
  | some (v, count, rest) =>
    if count = 0 then none
    else if !allowZero && leadZero && count > 1 then none
    else some (v, rest)

/-- Rust `Parser::read_given_char`. -/
def readGivenChar (c : Char) (s : List Char) : Option (List Char) :=
  match s with
  | [] => none
  | x :: xs => if x = c then some xs else none

/-- Rust `Parser::read_separator(sep, index, inner)`: a separator character
is required in front of every item but the first. -/
def readSeparator {α : Type} (sep : Char) (i : Nat)
    (inner : List Char → Option (α × List Char)) (s : List Char) : Option (α × List Char) :=
  if i = 0 then inner s
  else
    match readGivenChar sep s with
    | some s2 => inner s2
    | none => none

/-- One octet of an IPv4 address: `read_number(10, Some(3), false)` at
`u8`. -/
def readOctet (s : List Char) : Option (Nat × List Char) := readNumber 10 3 false 255 s

/-- Rust `Parser::read_ipv4_addr`: four dot-separated octets. -/
def readIpv4 (s : List Char) : Option ((Nat × Nat × Nat × Nat) × List Char) :=
  (readOctet s).bind fun p1 =>
  (readGivenChar '.' p1.2).bind fun s2 =>
  (readOctet s2).bind fun p2 =>
  (readGivenChar '.' p2.2).bind fun s4 =>
  (readOctet s4).bind fun p3 =>
  (readGivenChar '.' p3.2).bind fun s6 =>
  (readOctet s6).map fun p4 => ((p1.1, p2.1, p3.1, p4.1), p4.2)

/-- The `read_groups` helper of `Parser::read_ipv6_addr`, with the slots
still to fill counted down instead of indexed up: colon-separated hex
groups, an embedded trailing IPv4 address allowed while at least two slots
remain. Returns the groups read, whether an embedded IPv4 address ended
the run, and the rest. -/
def readGroups : Nat → Nat → List Nat → List Char → List Nat × Bool × List Char
  | 0, _, acc, s => (acc, false, s)
  | slots + 1, i, acc, s =>
    match (if 1 ≤ slots then readSeparator ':' i readIpv4 s else none) with
    | some (q, rest) =>
      (acc ++ [q.1 * 256 + q.2.1, q.2.2.1 * 256 + q.2.2.2], true, rest)
    | none =>
      match readSeparator ':' i (readNumber 16 4 true 65535) s with
      | some (g, rest) => readGroups slots (i + 1) (acc ++ [g]) rest
      | none => (acc, false, s)

/-- Rust `Parser::read_ipv6_addr`: a head run of groups, then either all
eight groups were read, or a `::` followed by a tail run, the address
being head, zeros, tail. An embedded IPv4 address is not allowed before
the `::`. -/
def readIpv6 (s : List Char) : Option (List Nat × List Char) :=
  match readGroups 8 0 [] s with
  | (hd, hdV4, s1) =>
    if hd.length = 8 then some (hd, s1)
    else if hdV4 then none
    else
      match readGivenChar ':' s1 with
      | none => none
      | some s2 =>
        match readGivenChar ':' s2 with
        | none => none
        | some s3 =>
          let limit := 8 - (hd.length + 1)
          match readGroups limit 0 [] s3 with
          | (tl, _, s4) =>
            some (hd ++ List.replicate (8 - hd.length - tl.length) 0 ++ tl, s4)

/-- The address type of `std::net::IpAddr`, with octets and groups as
plain naturals; well-formedness (the bounds the Rust types carry) is
`IpWf` below. -/
inductive IpAddr : Type
  | v4 : Nat → Nat → Nat → Nat → IpAddr
  | v6 : List Nat → IpAddr
deriving DecidableEq, Repr

/-- The bounds guaranteed by the Rust representation: `u8` octets,
eight `u16` groups. -/
def IpWf : IpAddr → Prop
  | .v4 a b c d => a < 256 ∧ b < 256 ∧ c < 256 ∧ d < 256
  | .v6 gs => gs.length = 8 ∧ ∀ g ∈ gs, g < 65536

instance : DecidablePred IpWf := by
  intro ip
  cases ip with
  | v4 a b c d => exact inferInstanceAs (Decidable (_ ∧ _ ∧ _ ∧ _))
  | v6 gs => exact inferInstanceAs (Decidable (_ ∧ _))

/-- Rust `Parser::read_ip_addr`: IPv4 attempted first, IPv6 otherwise. -/
def readIpAddr (s : List Char) : Option (IpAddr × List Char) :=
  match readIpv4 s with
  | some (q, rest) => some (.v4 q.1 q.2.1 q.2.2.1 q.2.2.2, rest)
  | none => (readIpv6 s).map fun p => (.v6 p.1, p.2)

/-- `<IpAddr as FromStr>::from_str`: `parse_with` demands that the whole
input be consumed. -/
def parseIpAddr (s : List Char) : Option IpAddr :=
  match readIpAddr s with
  | some (ip, []) => some ip
  | _ => none

/-- A character `read_number(16, ..)` would consume. -/
def isHexDigitC (c : Char) : Bool := (digitVal 16 c).isSome

/-- A character `read_number(10, ..)` would consume. -/
def isDecDigitC (c : Char) : Bool := (digitVal 10 c).isSome

/-- A stretch of input on which a group run stops: either exhausted, or a
colon whose continuation is dot-free and does not begin with a hex digit
(so neither another group nor an embedded IPv4 address can be read). -/
def GroupStop (suffix : List Char) : Prop :=
  suffix = [] ∨
    ∃ s2, suffix = ':' :: s2 ∧ (∀ c ∈ s2.head?, isHexDigitC c = false) ∧ '.' ∉ s2

/-! ## The Rust `Display` printers for `IpAddr` -/

/-- `<Ipv4Addr as Display>`: dotted decimal. -/
def displayIpv4 (a b c d : Nat) : List Char :=
  decStr a ++ ['.'] ++ decStr b ++ ['.'] ++ decStr c ++ ['.'] ++ decStr d

/-- The scan of `<Ipv6Addr as Display>` that finds the first longest run
of zero groups: state is the current run's start, the current run's
length, the best start and the best length, with the position `i` of the
next element; only a strictly longer current run replaces the best one. -/
def lzrAux : List Nat → Nat → Nat → Nat → Nat → Nat → Nat × Nat
  | [], _, _, _, bs, bl => (bs, bl)
  | x :: xs, i, cs, cl, bs, bl =>
    if x = 0 then
      let cs' := if cl = 0 then i else cs
      let cl' := cl + 1
      if cl' > bl then lzrAux xs (i + 1) cs' cl' cs' cl'
      else lzrAux xs (i + 1) cs' cl' bs bl
    else lzrAux xs (i + 1) 0 0 bs bl

/-- Start and length of the first longest run of zeros. -/
def longestZeroRun (l : List Nat) : Nat × Nat := lzrAux l 0 0 0 0 0

/-- Hex groups after the first, each with its leading colon. -/
def joinedGroups (gs : List Nat) : List Char := (gs.map fun g => ':' :: hexStr g).flatten

/-- The `fmt_subslice` helper of `<Ipv6Addr as Display>`: hex groups
separated by colons. -/
def fmtSubslice (gs : List Nat) : List Char :=
  match gs with
  | [] => []
  | g :: rest => hexStr g ++ joinedGroups rest

/-- `<Ipv6Addr as Display>`: the unspecified and loopback addresses and
IPv4-mapped addresses are special-cased, then the first longest zero run
of length at least two is compressed to `::`, else the full form is
written. -/
def displayIpv6 (segs : List Nat) : List Char :=
  if segs = List.replicate 8 0 then [':', ':']
  else if segs = [0, 0, 0, 0, 0, 0, 0, 1] then [':', ':', '1']
  else if segs.take 6 = [0, 0, 0, 0, 0, 65535] then
    [':', ':', 'f', 'f', 'f', 'f', ':'] ++
      displayIpv4 (segs.getD 6 0 / 256) (segs.getD 6 0 % 256)
        (segs.getD 7 0 / 256) (segs.getD 7 0 % 256)
  else if 1 < (longestZeroRun segs).2 then
    fmtSubslice (segs.take (longestZeroRun segs).1) ++ [':', ':'] ++
      fmtSubslice (segs.drop ((longestZeroRun segs).1 + (longestZeroRun segs).2))
  else fmtSubslice segs

/-- `<IpAddr as Display>` delegates to the version printers. -/
def displayIpAddr : IpAddr → List Char
  | .v4 a b c d => displayIpv4 a b c d
  | .v6 gs => displayIpv6 gs

/-! ## String helpers used by `extract_addr` -/

/-- Rust `str::split(',')`: the pieces between commas; the empty string
yields one empty piece. -/
def splitOnComma : List Char → List (List Char)
  | [] => [[]]
  | c :: cs =>
    if c = ',' then [] :: splitOnComma cs
    else
      match splitOnComma cs with
      | p :: ps => (c :: p) :: ps
      | [] => [[c]]

/-- The `White_Space` characters `char::is_whitespace` trims; only tab and
space can survive `HeaderValue::to_str`, the rest are listed for
faithfulness. -/
def isRustWs (c : Char) : Bool :=
  c.toNat = 9 ∨ c.toNat = 10 ∨ c.toNat = 11 ∨ c.toNat = 12 ∨ c.toNat = 13 ∨
  c.toNat = 32 ∨ c.toNat = 133 ∨ c.toNat = 160 ∨ c.toNat = 5760 ∨
  (8192 ≤ c.toNat ∧ c.toNat ≤ 8202) ∨ c.toNat = 8232 ∨ c.toNat = 8233 ∨
  c.toNat = 8239 ∨ c.toNat = 8287 ∨ c.toNat = 12288

/-- Rust `str::trim`: whitespace removed from both ends. -/
def trimStr (s : List Char) : List Char :=
  ((s.dropWhile isRustWs).reverse.dropWhile isRustWs).reverse

/-- `HeaderValue::to_str` from the `http` crate: succeeds exactly when
every byte is visible ASCII or tab. -/
def headerToStr (bytes : List Nat) : Option (List Char) :=
  if bytes.all fun b => (32 ≤ b && b < 127) || b = 9 then
    some (bytes.map Char.ofNat)
  else none

/-- The bytes of an ASCII string, for building header values. -/
def strToBytes (s : List Char) : List Nat := s.map Char.toNat

/-! ## `extract_addr` from `src/server.rs` -/

/-- `extract_addr(header, fallback)`: empty or unreadable header values
fall back; otherwise the value is split on commas, each piece trimmed,
and the last piece parsed as an IP address with the fallback on failure. -/
def extract_addr (header : List Nat) (fallback : IpAddr) : IpAddr :=
  if header.isEmpty then fallback
  else
    match headerToStr header with
    | some s =>
      match ((splitOnComma s).map trimStr).getLast? with
      | some raw => (parseIpAddr raw).getD fallback
      | none => fallback
    | none => fallback

/-- The specification's description of IP extraction, written from the
spec's words for comparison with `extract_addr`: "If absent or
unparseable, the raw TCP peer address is used. If present, the header
value is split on commas, trimmed, and the last element is parsed as an
IP address; on parse failure, fall back to the peer address." -/
def extractAddrSpec (header : List Nat) (fallback : IpAddr) : IpAddr :=
  match headerToStr header with
  | none => fallback
  | some s =>
    match ((splitOnComma s).map trimStr).getLast? with
    | some raw => (parseIpAddr raw).getD fallback
    | none => fallback

/-- The client address of `handle_websocket_connection`: the connect
address when the configured header is absent, `extract_addr` on its value
otherwise. -/
def clientAddr (peer : IpAddr) (hdr : Option (List Nat)) : IpAddr :=
  match hdr with
  | none => peer
  | some v => extract_addr v peer

/-! ## JSON bodies

`serde_json`'s compact rendering of `json!({"message": <string>})`. -/

/-- `serde_json`'s escaping of one character inside a string literal. -/
def jsonEscapeChar (c : Char) : List Char :=
  if c = '"' then ['\\', '"']
  else if c = '\\' then ['\\', '\\']
  else if c = '\x08' then ['\\', 'b']
  else if c = '\x09' then ['\\', 't']
  else if c = '\x0a' then ['\\', 'n']
  else if c = '\x0c' then ['\\', 'f']
  else if c = '\x0d' then ['\\', 'r']
  else if c.toNat < 32 then
    ['\\', 'u', '0', '0', digitChar (c.toNat / 16), digitChar (c.toNat % 16)]
  else [c]

/-- A JSON string literal. -/
def jsonStr (s : List Char) : List Char :=
  '"' :: (s.map jsonEscapeChar).flatten ++ ['"']

/-- `json!({"message": msg}).to_string()`. -/
def jsonMessage (msg : List Char) : List Char :=
  "\x7b\"message\":".toList ++ jsonStr msg ++ "\x7d".toList

/-! ## The API-key telemetry label

`handle_websocket_connection` truncates long keys with `&key[0..8]`, a
byte slice; `key.len()` is the UTF-8 byte length, and slicing panics when
byte offset 8 is not a character boundary. -/

/-- UTF-8 byte length of one character. -/
def utf8Len (c : Char) : Nat :=
  if c.toNat < 128 then 1
  else if c.toNat < 2048 then 2
  else if c.toNat < 65536 then 3
  else 4

/-- `str::len`: the UTF-8 byte length. -/
def byteLen (s : List Char) : Nat := (s.map utf8Len).sum

/-- `&s[0..n]` as a byte slice from the front: `some` of the characters
whose bytes make up the first `n` bytes when `n` is a character boundary,
`none` (a panic) otherwise. -/
def takeBytes : List Char → Nat → Option (List Char)
  | _, 0 => some []
  | [], _ + 1 => none
  | c :: cs, n + 1 =>
    if utf8Len c ≤ n + 1 then (takeBytes cs (n + 1 - utf8Len c)).map (c :: ·)
    else none

/-- The `key_value` computation of `handle_websocket_connection`:
`"none"` without a key, the key itself at byte length at most 8, else its
first 8 bytes followed by `"..."`; `none` is the byte-slice panic. -/
def keyLabel : Option (List Char) → Option (List Char)
  | none => some "none".toList
  | some key =>
    if byteLen key > 8 then (takeBytes key 8).map (· ++ "...".toList)
    else some key

/-! ## The admission handlers of `src/server.rs`

The rate limiter trait lives outside the admission code; it enters as a
state type `σ` with a `try_acquire` step function. Counters are naturals.
Every observable of one request is collected in `HandleOutcome`. -/

/-- The counters of `Metrics` touched by admission. -/
structure Metrics where
  unauthorized : Nat
  rateLimited : Nat
deriving DecidableEq, Repr

/-- `RateLimit::try_acquire`: a ticket (the successor limiter state) or a
`RateLimitError::Limit { reason }`. -/
inductive AcquireResult (σ : Type) : Type
  | ok (s : σ)
  | limited (reason : List Char) (s : σ)

/-- Everything one request does: the response (status and body), the
counters, the limiter state, the IP extraction performed, the
`try_acquire` calls made in order, the API-key counter label emitted, and
whether the WebSocket upgrade (hence a client session) was set up.
`panicked` records the byte-slice panic, on which no response is built. -/
structure HandleOutcome (σ : Type) where
  panicked : Bool
  status : Nat
  body : Option (List Char)
  metrics : Metrics
  limiter : σ
  extracted : Option IpAddr
  acquires : List IpAddr
  keyCounterLabel : Option (List Char)
  upgraded : Bool
deriving DecidableEq, Repr

/-- `handle_websocket_connection`: extract the client address, ask the
rate limiter, on a limit answer 429 with the reason as JSON message and
bump `rate_limited_requests`, else emit the per-key counter and hand the
socket to upgrade and session creation. -/
def handle_websocket_connection {σ : Type} (tryAcquire : σ → IpAddr → AcquireResult σ)
    (m : Metrics) (l : σ) (peer : IpAddr) (hdr : Option (List Nat))
    (api_key : Option (List Char)) : HandleOutcome σ :=
  let client_addr := clientAddr peer hdr
  match tryAcquire l client_addr with
  | .limited reason l' =>
    { panicked := false, status := 429, body := some (jsonMessage reason)
      metrics := { m with rateLimited := m.rateLimited + 1 }, limiter := l'
      extracted := some client_addr, acquires := [client_addr]
      keyCounterLabel := none, upgraded := false }
  | .ok l' =>
    match keyLabel api_key with
    | none =>
      { panicked := true, status := 0, body := none, metrics := m, limiter := l'
        extracted := some client_addr, acquires := [client_addr]
        keyCounterLabel := none, upgraded := false }
    | some label =>
      { panicked := false, status := 101, body := none, metrics := m, limiter := l'
        extracted := some client_addr, acquires := [client_addr]
        keyCounterLabel := some label, upgraded := true }

/-- `websocket_handler` (route `/ws`): a non-empty key list rejects with
401 `API key required` and bumps `unauthorized_requests`. -/
def websocket_handler {σ : Type} (tryAcquire : σ → IpAddr → AcquireResult σ)
    (api_keys : List (List Char)) (m : Metrics) (l : σ) (peer : IpAddr)
    (hdr : Option (List Nat)) : HandleOutcome σ :=
  if api_keys ≠ [] then
    { panicked := false, status := 401, body := some (jsonMessage "API key required".toList)
      metrics := { m with unauthorized := m.unauthorized + 1 }, limiter := l
      extracted := none, acquires := [], keyCounterLabel := none, upgraded := false }
  else handle_websocket_connection tryAcquire m l peer hdr none

/-- `websocket_handler_with_key` (route `/ws/{api_key}`): with a
non-empty key list an unknown key rejects with 401 `Invalid API key` and
bumps `unauthorized_requests`. -/
def websocket_handler_with_key {σ : Type} (tryAcquire : σ → IpAddr → AcquireResult σ)
    (api_keys : List (List Char)) (m : Metrics) (l : σ) (peer : IpAddr)
    (hdr : Option (List Nat)) (api_key : List Char) : HandleOutcome σ :=
  if api_keys ≠ [] ∧ api_key ∉ api_keys then
    { panicked := false, status := 401, body := some (jsonMessage "Invalid API key".toList)
      metrics := { m with unauthorized := m.unauthorized + 1 }, limiter := l
      extracted := none, acquires := [], keyCounterLabel := none, upgraded := false }
  else handle_websocket_connection tryAcquire m l peer hdr (some api_key)

/-! ## The broadcast bus and the `active_connections` gauge

From `src/main.rs`: `broadcast::channel` hands back one receiver `_rec`
that is held for the whole run, and the upstream listener sets the gauge
to `receiver_count() - 1`. Modelled from the spec: the registry and
client sessions (`src/registry.rs`, `src/client.rs`, not under `src/`)
re-derive the gauge from the bus's reader count minus the keep-alive
receiver whenever a reader subscribes or a session ends (spec section
4.4), and only client receivers are ever dropped. Each event is one
atomic step. -/

/-- Reader subscriptions, reader drops and upstream messages. -/
inductive BusEvent : Type
  | subscribe
  | dropClient
  | publish
deriving DecidableEq, Repr

/-- The bus's receiver count, the exported gauge, and whether a publish
ever saw the channel closed. -/
structure BusState where
  receivers : Nat
  gauge : Nat
  sendFailed : Bool
deriving DecidableEq, Repr

/-- The state after `broadcast::channel`: the internal keep-alive
receiver `_rec` is the one receiver; the gauge starts at zero. -/
def busInit : BusState := { receivers := 1, gauge := 0, sendFailed := false }

/-- One event: subscribing adds a receiver, dropping removes a client
receiver (the keep-alive receiver is never dropped), publishing fails if
no receiver is left; on each event the gauge is re-derived as
`receiver_count - 1`. -/
def busStep (s : BusState) : BusEvent → BusState
  | .subscribe =>
    { receivers := s.receivers + 1, gauge := s.receivers + 1 - 1, sendFailed := s.sendFailed }
  | .dropClient =>
    if 2 ≤ s.receivers then
      { receivers := s.receivers - 1, gauge := s.receivers - 1 - 1, sendFailed := s.sendFailed }
    else s
  | .publish =>
    { receivers := s.receivers, gauge := s.receivers - 1
      sendFailed := s.sendFailed || s.receivers = 0 }

/-- The bus state after a run of events. -/
def busRun (evs : List BusEvent) : BusState := evs.foldl busStep busInit

/-- The bus invariant: the gauge is the receiver count less the
keep-alive receiver, at least one receiver is alive, and no publish ever
saw a closed channel. -/
def busInv (s : BusState) : Prop :=
  s.gauge = s.receivers - 1 ∧ 1 ≤ s.receivers ∧ s.sendFailed = false

/-! ## Startup (`src/main.rs`) -/

/-- The configuration startup looks at. -/
structure StartArgs where
  metricsEnabled : Bool
  upstream : List (List Char)

/-- The externally visible startup actions. -/
inductive StartStep : Type
  | installMetrics
  | spawnSubscriber (i : Nat)
  | listenServer
deriving DecidableEq, Repr

/-- The startup sequence of `main`: install the metrics exporter when
enabled, then panic with `No upstream URIs provided` if `upstream_ws` is
empty, else spawn one subscriber task per upstream and start the
admission server. Returns the steps performed and the panic message, if
any. -/
def mainStartup (a : StartArgs) : List StartStep × Option (List Char) :=
  let pre := if a.metricsEnabled then [StartStep.installMetrics] else []
  if a.upstream.isEmpty then (pre, some "No upstream URIs provided".toList)
  else
    (pre ++ (List.range a.upstream.length).map StartStep.spawnSubscriber ++
      [StartStep.listenServer], none)

/-! # Claims -/

/-- C1: with the configured IP header absent the raw TCP peer address is
used; with it present, the value is split on commas, each element
trimmed, and the last element parsed as an IP address, falling back to
the peer address on parse failure or an unreadable value (this is the
spec-side description `extractAddrSpec`, which `extract_addr` equals);
with fallback `127.0.0.1` the six table entries extract as listed. -/
theorem C1_ip_extraction :
    (∀ peer : IpAddr, clientAddr peer none = peer)
    ∧ (∀ peer v, clientAddr peer (some v) = extract_addr v peer)
    ∧ (∀ v fb, extract_addr v fb = extractAddrSpec v fb)
    ∧ extract_addr (strToBytes "129.1.1.1".toList) (.v4 127 0 0 1) = .v4 129 1 1 1
    ∧ extract_addr (strToBytes "129.1.1.1,130.1.1.1".toList) (.v4 127 0 0 1) = .v4 130 1 1 1
    ∧ extract_addr (strToBytes "129.1.1.1  ,  130.1.1.1   ".toList) (.v4 127 0 0 1)
        = .v4 130 1 1 1
    ∧ extract_addr (strToBytes "nonsense".toList) (.v4 127 0 0 1) = .v4 127 0 0 1
    ∧ extract_addr (strToBytes "400.0.0.1".toList) (.v4 127 0 0 1) = .v4 127 0 0 1
    ∧ extract_addr (strToBytes "120.0.0.1.0".toList) (.v4 127 0 0 1) = .v4 127 0 0 1 := by
  refine ⟨fun peer => rfl, fun peer v => rfl, fun v fb => ?_,
    by decide, by decide, by decide, by decide, by decide, by decide⟩
  cases v with
  | nil => rfl
  | cons c cs => cases h : headerToStr (c :: cs) <;> simp [extract_addr, extractAddrSpec, h]

/-- C2: while the API-key list is non-empty, `/ws` answers 401 with body
`{"message":"API key required"}`, `/ws/{key}` answers 401 with body
`{"message":"Invalid API key"}` for a key not in the list (and goes on to
the common handler for a listed key); each rejection bumps the
unauthorized-requests counter exactly once and touches nothing else. -/
theorem C2_auth_rejections : ∀ (σ : Type) (f : σ → IpAddr → AcquireResult σ)
    (keys : List (List Char)) (m : Metrics) (l : σ) (peer : IpAddr)
    (hdr : Option (List Nat)) (key : List Char), keys ≠ [] →
    websocket_handler f keys m l peer hdr =
      { panicked := false, status := 401
        body := some (jsonMessage "API key required".toList)
        metrics := { unauthorized := m.unauthorized + 1, rateLimited := m.rateLimited }
        limiter := l, extracted := none, acquires := [], keyCounterLabel := none
        upgraded := false }
    ∧ (key ∉ keys →
        websocket_handler_with_key f keys m l peer hdr key =
          { panicked := false, status := 401
            body := some (jsonMessage "Invalid API key".toList)
            metrics := { unauthorized := m.unauthorized + 1, rateLimited := m.rateLimited }
            limiter := l, extracted := none, acquires := [], keyCounterLabel := none
            upgraded := false })
    ∧ (key ∈ keys →
        websocket_handler_with_key f keys m l peer hdr key =
          handle_websocket_connection f m l peer hdr (some key)) := by
  intro σ f keys m l peer hdr key hk
  refine ⟨by simp [websocket_handler, hk], fun hnot => ?_, fun hmem => ?_⟩
  · simp [websocket_handler_with_key, hk, hnot]
  · simp [websocket_handler_with_key, hmem]

/-- C2 witness: with key list `["A"]` the theorem applies; the `/ws`
response evaluates to status 401. -/
theorem C2_auth_rejections_witness :
    ([['A']] : List (List Char)) ≠ [] ∧
    (websocket_handler (fun (s : Unit) _ => AcquireResult.ok s) [['A']] ⟨0, 0⟩ ()
      (.v4 127 0 0 1) none).status = 401 := by
  refine ⟨by decide, ?_⟩
  have h := (C2_auth_rejections Unit (fun s _ => AcquireResult.ok s) [['A']] ⟨0, 0⟩ ()
    (.v4 127 0 0 1) none ['B'] (by decide)).1
  rw [h]

/-- C3 counterexample: with an empty key list `/ws/{key}` does not behave
identically to `/ws` for every key. On the admitted path, the key
`aaaaaaaé1` (10 UTF-8 bytes, byte 8 inside `é`) makes the key-label byte
slice panic while `/ws` upgrades, and even a plain 9-character key emits
a different per-key counter label than `/ws`. -/
theorem C3_counterexample :
    (websocket_handler_with_key (fun (s : Unit) _ => AcquireResult.ok s) [] ⟨0, 0⟩ ()
        (.v4 127 0 0 1) none "aaaaaaaé1".toList
      ≠ websocket_handler (fun (s : Unit) _ => AcquireResult.ok s) [] ⟨0, 0⟩ ()
        (.v4 127 0 0 1) none)
    ∧ (websocket_handler_with_key (fun (s : Unit) _ => AcquireResult.ok s) [] ⟨0, 0⟩ ()
        (.v4 127 0 0 1) none "aaaaaaaé1".toList).panicked = true
    ∧ (websocket_handler (fun (s : Unit) _ => AcquireResult.ok s) [] ⟨0, 0⟩ ()
        (.v4 127 0 0 1) none).panicked = false
    ∧ (websocket_handler_with_key (fun (s : Unit) _ => AcquireResult.ok s) [] ⟨0, 0⟩ ()
        (.v4 127 0 0 1) none "123456789".toList).keyCounterLabel
      ≠ (websocket_handler (fun (s : Unit) _ => AcquireResult.ok s) [] ⟨0, 0⟩ ()
        (.v4 127 0 0 1) none).keyCounterLabel := by decide

/-- C3 amended: while the API-key list is empty, `/ws` and `/ws/{key}`
both go straight to the common handler (so no key is ever rejected for
authentication, and both perform the same IP extraction and rate
limiting); whenever the key's telemetry label computation does not panic,
the `/ws/{key}` outcome agrees with the `/ws` outcome on every observable
except the emitted per-key counter label. -/
theorem C3_empty_keys : ∀ (σ : Type) (f : σ → IpAddr → AcquireResult σ) (m : Metrics)
    (l : σ) (peer : IpAddr) (hdr : Option (List Nat)) (key : List Char),
    websocket_handler f [] m l peer hdr = handle_websocket_connection f m l peer hdr none
    ∧ websocket_handler_with_key f [] m l peer hdr key
        = handle_websocket_connection f m l peer hdr (some key)
    ∧ (websocket_handler_with_key f [] m l peer hdr key).status ≠ 401
    ∧ (∀ lbl, keyLabel (some key) = some lbl →
        (websocket_handler_with_key f [] m l peer hdr key).panicked
            = (websocket_handler f [] m l peer hdr).panicked
        ∧ (websocket_handler_with_key f [] m l peer hdr key).status
            = (websocket_handler f [] m l peer hdr).status
        ∧ (websocket_handler_with_key f [] m l peer hdr key).body
            = (websocket_handler f [] m l peer hdr).body
        ∧ (websocket_handler_with_key f [] m l peer hdr key).metrics
            = (websocket_handler f [] m l peer hdr).metrics
        ∧ (websocket_handler_with_key f [] m l peer hdr key).limiter
            = (websocket_handler f [] m l peer hdr).limiter
        ∧ (websocket_handler_with_key f [] m l peer hdr key).extracted
            = (websocket_handler f [] m l peer hdr).extracted
        ∧ (websocket_handler_with_key f [] m l peer hdr key).acquires
            = (websocket_handler f [] m l peer hdr).acquires
        ∧ (websocket_handler_with_key f [] m l peer hdr key).upgraded
            = (websocket_handler f [] m l peer hdr).upgraded) := by
  intro σ f m l peer hdr key
  have hp : websocket_handler f [] m l peer hdr
      = handle_websocket_connection f m l peer hdr none := by
    simp [websocket_handler]
  have hw : websocket_handler_with_key f [] m l peer hdr key
      = handle_websocket_connection f m l peer hdr (some key) := by
    simp [websocket_handler_with_key]
  refine ⟨hp, hw, ?_, ?_⟩
  · rw [hw]
    cases hacq : f l (clientAddr peer hdr) with
    | limited r l' => simp [handle_websocket_connection, hacq]
    | ok l' =>
      cases hkl : keyLabel (some key) with
      | none => simp [handle_websocket_connection, hacq, hkl]
      | some lbl => simp [handle_websocket_connection, hacq, hkl]
  · intro lbl hlbl
    rw [hw, hp]
    cases hacq : f l (clientAddr peer hdr) with
    | limited r l' => simp [handle_websocket_connection, hacq]
    | ok l' =>
      have hn : keyLabel (none : Option (List Char)) = some "none".toList := rfl
      simp [handle_websocket_connection, hacq, hlbl, hn]

/-- C3 witness: at key `k` the label computation succeeds and the
theorem's agreement clause gives equal statuses for `/ws/k` and `/ws`. -/
theorem C3_empty_keys_witness :
    keyLabel (some ['k']) = some ['k'] ∧
    (websocket_handler_with_key (fun (s : Unit) _ => AcquireResult.ok s) [] ⟨0, 0⟩ ()
        (.v4 127 0 0 1) none ['k']).status
      = (websocket_handler (fun (s : Unit) _ => AcquireResult.ok s) [] ⟨0, 0⟩ ()
        (.v4 127 0 0 1) none).status := by
  refine ⟨by decide, ?_⟩
  exact ((C3_empty_keys Unit (fun s _ => AcquireResult.ok s) ⟨0, 0⟩ () (.v4 127 0 0 1)
    none ['k']).2.2.2 ['k'] (by decide)).2.1

/-- C4: when `try_acquire` on the extracted client IP answers a limit
error with some reason, the common handler answers 429 with body
`{"message":<reason>}`, bumps the rate-limited counter exactly once,
performs no upgrade and creates no session. -/
theorem C4_rate_limited : ∀ (σ : Type) (f : σ → IpAddr → AcquireResult σ) (m : Metrics)
    (l : σ) (peer : IpAddr) (hdr : Option (List Nat)) (key : Option (List Char))
    (reason : List Char) (l' : σ),
    f l (clientAddr peer hdr) = .limited reason l' →
    handle_websocket_connection f m l peer hdr key =
      { panicked := false, status := 429, body := some (jsonMessage reason)
        metrics := { unauthorized := m.unauthorized, rateLimited := m.rateLimited + 1 }
        limiter := l', extracted := some (clientAddr peer hdr)
        acquires := [clientAddr peer hdr], keyCounterLabel := none
        upgraded := false } := by
  intro σ f m l peer hdr key reason l' hacq
  simp [handle_websocket_connection, hacq]

/-- C4 witness: a limiter that always answers `full` makes the handler
evaluate to a 429 response. -/
theorem C4_rate_limited_witness :
    ((fun (s : Unit) (_ : IpAddr) => AcquireResult.limited ['f', 'u', 'l', 'l'] s) ()
        (clientAddr (.v4 127 0 0 1) none) = .limited ['f', 'u', 'l', 'l'] ())
    ∧ (handle_websocket_connection
        (fun (s : Unit) _ => AcquireResult.limited ['f', 'u', 'l', 'l'] s) ⟨0, 0⟩ ()
        (.v4 127 0 0 1) none none).status = 429 := by
  refine ⟨rfl, ?_⟩
  have h := C4_rate_limited Unit (fun s _ => AcquireResult.limited ['f', 'u', 'l', 'l'] s)
    ⟨0, 0⟩ () (.v4 127 0 0 1) none none ['f', 'u', 'l', 'l'] () rfl
  rw [h]

/-- C5 counterexample: the label is computed from bytes, not characters.
The key `ααααα` has 5 characters (at most 8) but 10 UTF-8 bytes, so the
code emits its first 8 bytes `αααα` followed by `...` instead of the full
key the claim requires. -/
theorem C5_counterexample :
    (handle_websocket_connection (fun (s : Unit) _ => AcquireResult.ok s) ⟨0, 0⟩ ()
        (.v4 127 0 0 1) none (some "ααααα".toList)).keyCounterLabel
      = some "αααα...".toList
    ∧ ("ααααα".toList).length ≤ 8
    ∧ (handle_websocket_connection (fun (s : Unit) _ => AcquireResult.ok s) ⟨0, 0⟩ ()
        (.v4 127 0 0 1) none (some "ααααα".toList)).keyCounterLabel
      ≠ some "ααααα".toList := by decide

/-- C5 amended: on each admitted connection the per-key counter label is
`none` without a key, the full key when its UTF-8 byte length is at most
8, and its first 8 bytes followed by `...` when it is longer and byte
offset 8 falls on a character boundary (otherwise the byte slice
panics and no counter is emitted). -/
theorem C5_key_label : ∀ (σ : Type) (f : σ → IpAddr → AcquireResult σ) (m : Metrics)
    (l : σ) (peer : IpAddr) (hdr : Option (List Nat)) (l' : σ),
    f l (clientAddr peer hdr) = .ok l' →
    (handle_websocket_connection f m l peer hdr none).keyCounterLabel = some "none".toList
    ∧ (∀ k, byteLen k ≤ 8 →
        (handle_websocket_connection f m l peer hdr (some k)).keyCounterLabel = some k)
    ∧ (∀ k pre8, 8 < byteLen k → takeBytes k 8 = some pre8 →
        (handle_websocket_connection f m l peer hdr (some k)).keyCounterLabel
          = some (pre8 ++ "...".toList))
    ∧ (∀ k, 8 < byteLen k → takeBytes k 8 = none →
        (handle_websocket_connection f m l peer hdr (some k)).panicked = true
        ∧ (handle_websocket_connection f m l peer hdr (some k)).keyCounterLabel = none) := by
  intro σ f m l peer hdr l' hacq
  refine ⟨by simp [handle_websocket_connection, hacq, keyLabel], fun k hk => ?_,
    fun k pre8 hk ht => ?_, fun k hk ht => ?_⟩
  · simp [handle_websocket_connection, hacq, keyLabel, Nat.not_lt.mpr hk]
  · simp [handle_websocket_connection, hacq, keyLabel, hk, ht]
  · simp [handle_websocket_connection, hacq, keyLabel, hk, ht]

/-- C5 witness: with an always-admitting limiter the three label shapes
evaluate as stated for the keys `none`, `short` and `123456789`. -/
theorem C5_key_label_witness :
    ((fun (s : Unit) (_ : IpAddr) => AcquireResult.ok s) ()
        (clientAddr (.v4 127 0 0 1) none) = .ok ())
    ∧ (handle_websocket_connection (fun (s : Unit) _ => AcquireResult.ok s) ⟨0, 0⟩ ()
        (.v4 127 0 0 1) none none).keyCounterLabel = some "none".toList
    ∧ (handle_websocket_connection (fun (s : Unit) _ => AcquireResult.ok s) ⟨0, 0⟩ ()
        (.v4 127 0 0 1) none (some "short".toList)).keyCounterLabel = some "short".toList
    ∧ (handle_websocket_connection (fun (s : Unit) _ => AcquireResult.ok s) ⟨0, 0⟩ ()
        (.v4 127 0 0 1) none (some "123456789".toList)).keyCounterLabel
      = some "12345678...".toList := by
  have h := C5_key_label Unit (fun s _ => AcquireResult.ok s) ⟨0, 0⟩ () (.v4 127 0 0 1)
    none () rfl
  refine ⟨rfl, h.1, ?_, ?_⟩
  · have := h.2.1 "short".toList (by decide)
    rw [this]
  · have := h.2.2.1 "123456789".toList "12345678".toList (by decide) (by decide)
    rw [this]
    decide

/-- C6: admission checks authentication first, extracts the client IP
second and only then calls `try_acquire` on the extracted address; a
request rejected with 401 for authentication therefore performs no
extraction, never calls `try_acquire`, and leaves the limiter state (its
global and per-IP counters) untouched. -/
theorem C6_admission_order : ∀ (σ : Type) (f : σ → IpAddr → AcquireResult σ)
    (keys : List (List Char)) (m : Metrics) (l : σ) (peer : IpAddr)
    (hdr : Option (List Nat)) (key : List Char), keys ≠ [] →
    ((websocket_handler f keys m l peer hdr).acquires = []
      ∧ (websocket_handler f keys m l peer hdr).extracted = none
      ∧ (websocket_handler f keys m l peer hdr).limiter = l)
    ∧ (key ∉ keys →
        (websocket_handler_with_key f keys m l peer hdr key).acquires = []
        ∧ (websocket_handler_with_key f keys m l peer hdr key).extracted = none
        ∧ (websocket_handler_with_key f keys m l peer hdr key).limiter = l)
    ∧ (∀ k, (handle_websocket_connection f m l peer hdr k).extracted
          = some (clientAddr peer hdr)
        ∧ (handle_websocket_connection f m l peer hdr k).acquires
          = [clientAddr peer hdr]) := by
  intro σ f keys m l peer hdr key hk
  refine ⟨by simp [websocket_handler, hk], fun hnot => ?_, fun k => ?_⟩
  · simp [websocket_handler_with_key, hk, hnot]
  · cases hacq : f l (clientAddr peer hdr) with
    | limited r l' => simp [handle_websocket_connection, hacq]
    | ok l' =>
      cases hkl : keyLabel k with
      | none => simp [handle_websocket_connection, hacq, hkl]
      | some lbl => simp [handle_websocket_connection, hacq, hkl]

/-- C6 witness: with key list `["A"]` and a rejected request the limiter
state and acquire trace evaluate to untouched. -/
theorem C6_admission_order_witness :
    ([['A']] : List (List Char)) ≠ [] ∧
    (websocket_handler (fun (s : Nat) _ => AcquireResult.ok (s + 1)) [['A']] ⟨0, 0⟩ 7
      (.v4 127 0 0 1) none).limiter = 7 := by
  refine ⟨by decide, ?_⟩
  exact ((C6_admission_order Nat (fun s _ => AcquireResult.ok (s + 1)) [['A']] ⟨0, 0⟩ 7
    (.v4 127 0 0 1) none ['B'] (by decide)).1).2.2

/-- Preservation of the bus invariant by one event. -/
theorem busStep_inv (s : BusState) (e : BusEvent) (h : busInv s) : busInv (busStep s e) := by
  obtain ⟨hg, hr, hf⟩ := h
  cases e with
  | subscribe =>
    refine ⟨rfl, ?_, hf⟩
    show 1 ≤ s.receivers + 1
    omega
  | dropClient =>
    by_cases h2 : 2 ≤ s.receivers
    · simp only [busStep, if_pos h2]
      refine ⟨rfl, ?_, hf⟩
      show 1 ≤ s.receivers - 1
      omega
    · simp only [busStep, if_neg h2]
      exact ⟨hg, hr, hf⟩
  | publish =>
    refine ⟨rfl, hr, ?_⟩
    show (s.sendFailed || decide (s.receivers = 0)) = false
    have hnz : s.receivers ≠ 0 := by omega
    simp [hf, hnz]

/-- The bus invariant holds along any run from an invariant state. -/
theorem busRun_inv_aux : ∀ (evs : List BusEvent) (s : BusState), busInv s →
    busInv (evs.foldl busStep s) := by
  intro evs
  induction evs with
  | nil => intro s h; exact h
  | cons e evs ih => intro s h; exact ih (busStep s e) (busStep_inv s e h)

/-- C8: after any sequence of subscriptions, client drops and upstream
messages, the exported `active_connections` gauge equals the bus's
receiver count minus one, the internal keep-alive receiver keeps that
count at least one for the bus's whole lifetime, and consequently no
publish ever observes a closed channel. -/
theorem C8_gauge_invariant : ∀ evs : List BusEvent,
    (busRun evs).gauge = (busRun evs).receivers - 1
    ∧ 1 ≤ (busRun evs).receivers
    ∧ (busRun evs).sendFailed = false := by
  intro evs
  exact busRun_inv_aux evs busInit ⟨rfl, Nat.le_refl 1, rfl⟩

/-- C9: an empty list of upstream WebSocket URIs makes startup panic with
`No upstream URIs provided` before any subscriber task is spawned and
before the admission server starts listening. -/
theorem C9_no_upstreams : ∀ a : StartArgs, a.upstream = [] →
    (mainStartup a).2 = some "No upstream URIs provided".toList
    ∧ (∀ i, StartStep.spawnSubscriber i ∉ (mainStartup a).1)
    ∧ StartStep.listenServer ∉ (mainStartup a).1 := by
  intro a ha
  have he : a.upstream.isEmpty = true := by simp [ha]
  refine ⟨by simp [mainStartup, he], fun i => ?_, ?_⟩
  · simp only [mainStartup, he, if_true]
    cases a.metricsEnabled <;> simp
  · simp only [mainStartup, he, if_true]
    cases a.metricsEnabled <;> simp

/-- C9 witness: with metrics enabled and no upstreams the startup trace
evaluates to a metrics install followed by the fatal panic. -/
theorem C9_no_upstreams_witness :
    (StartArgs.mk true []).upstream = [] ∧
    (mainStartup (StartArgs.mk true [])).2 = some "No upstream URIs provided".toList := by
  refine ⟨rfl, ?_⟩
  exact (C9_no_upstreams (StartArgs.mk true []) rfl).1

/-! ## Digit rendering lemmas (towards C7) -/

/-- The accumulator of `digitsCore` is a suffix it only prepends to. -/
theorem digitsCore_append (radix : Nat) : ∀ (fuel n : Nat) (acc : List Char),
    digitsCore radix fuel n acc = digitsCore radix fuel n [] ++ acc := by
  intro fuel
  induction fuel with
  | zero => intro n acc; rfl
  | succ fuel ih =>
    intro n acc
    by_cases h : n < radix ∨ radix < 2
    · simp [digitsCore, h]
    · simp only [digitsCore, if_neg h]
      rw [ih (n / radix) (digitChar (n % radix) :: acc),
        ih (n / radix) [digitChar (n % radix)], List.append_assoc]
      rfl

/-- Any fuel at least `n` computes the same digit string. -/
theorem digitsCore_fuel (radix : Nat) (h2 : 2 ≤ radix) : ∀ (n fuel fuel' : Nat),
    n ≤ fuel → n ≤ fuel' → digitsCore radix fuel n [] = digitsCore radix fuel' n [] := by
  intro n
  induction n using Nat.strong_induction_on with
  | _ n ih =>
    intro fuel fuel' hf hf'
    by_cases h : n < radix ∨ radix < 2
    · cases fuel with
      | zero => cases fuel' with
        | zero => rfl
        | succ f' => simp [digitsCore, h]
      | succ f => cases fuel' with
        | zero => simp [digitsCore, h]
        | succ f' => simp [digitsCore, h]
    · have hrn : radix ≤ n := by omega
      have hn2 : 2 ≤ n := by omega
      cases fuel with
      | zero => omega
      | succ f => cases fuel' with
        | zero => omega
        | succ f' =>
          simp only [digitsCore, if_neg h]
          have hlt : n / radix < n := Nat.div_lt_self (by omega) (by omega)
          rw [digitsCore_append radix f, digitsCore_append radix f',
            ih (n / radix) hlt f f' (by omega) (by omega)]

/-- Unfolding for a single digit. -/
theorem digits_lt (radix n : Nat) (h : n < radix) :
    digitsCore radix n n [] = [digitChar n] := by
  cases n with
  | zero => rfl
  | succ k => simp [digitsCore, Or.inl h]

/-- Unfolding for two or more digits. -/
theorem digits_ge (radix n : Nat) (h2 : 2 ≤ radix) (h : radix ≤ n) :
    digitsCore radix n n []
      = digitsCore radix (n / radix) (n / radix) [] ++ [digitChar (n % radix)] := by
  have hn1 : 1 ≤ n := by omega
  cases n with
  | zero => omega
  | succ k =>
    have hcond : ¬(k + 1 < radix ∨ radix < 2) := by omega
    simp only [digitsCore, if_neg hcond]
    rw [digitsCore_append radix k]
    have hlt : (k + 1) / radix ≤ k := by
      have hd : (k + 1) / radix < k + 1 := Nat.div_lt_self (by omega) (by omega)
      omega
    rw [digitsCore_fuel radix h2 ((k + 1) / radix) k ((k + 1) / radix) hlt (Nat.le_refl _)]

/-- A digit string is never empty. -/
theorem digits_ne_nil (radix n : Nat) (h2 : 2 ≤ radix) :
    digitsCore radix n n [] ≠ [] := by
  by_cases h : n < radix
  · rw [digits_lt radix n h]; simp
  · rw [digits_ge radix n h2 (by omega)]; simp

/-- Every character of a digit string is a digit character for the
radix. -/
theorem digits_mem (radix : Nat) (h2 : 2 ≤ radix) : ∀ (n : Nat) (c : Char),
    c ∈ digitsCore radix n n [] → ∃ d, d < radix ∧ c = digitChar d := by
  intro n
  induction n using Nat.strong_induction_on with
  | _ n ih =>
    intro c hc
    by_cases h : n < radix
    · rw [digits_lt radix n h] at hc
      simp at hc
      exact ⟨n, h, hc⟩
    · rw [digits_ge radix n h2 (by omega)] at hc
      rcases List.mem_append.mp hc with h1 | h1
      · exact ih (n / radix) (Nat.div_lt_self (by omega) (by omega)) c h1
      · simp at h1
        exact ⟨n % radix, Nat.mod_lt n (by omega), h1⟩

/-- Appending digit runs composes `valFrom`. -/
theorem valFrom_append (radix : Nat) : ∀ (xs ys : List Char) (a : Nat),
    valFrom radix a (xs ++ ys) = valFrom radix (valFrom radix a xs) ys := by
  intro xs
  induction xs with
  | nil => intro ys a; rfl
  | cons c cs ih => intro ys a; simp only [List.cons_append, valFrom]; exact ih ys _

/-- The digit loop never decreases its accumulator (for radix at least
one). -/
theorem valFrom_ge (radix : Nat) (h1 : 1 ≤ radix) : ∀ (ds : List Char) (a : Nat),
    a ≤ valFrom radix a ds := by
  intro ds
  induction ds with
  | nil => intro a; exact Nat.le_refl a
  | cons c cs ih =>
    intro a
    calc a ≤ a * radix + (digitVal radix c).getD 0 := by nlinarith
    _ ≤ valFrom radix (a * radix + (digitVal radix c).getD 0) cs := ih _

/-- Reading back a digit string recovers the number (on top of a scaled
accumulator), provided `digitVal` inverts `digitChar` below the radix. -/
theorem digits_val (radix : Nat) (h2 : 2 ≤ radix)
    (hdv : ∀ d, d < radix → digitVal radix (digitChar d) = some d) :
    ∀ (n a : Nat), valFrom radix a (digitsCore radix n n [])
      = a * radix ^ (digitsCore radix n n []).length + n := by
  intro n
  induction n using Nat.strong_induction_on with
  | _ n ih =>
    intro a
    by_cases h : n < radix
    · rw [digits_lt radix n h]
      simp [valFrom, hdv n h]
    · rw [digits_ge radix n h2 (by omega)]
      rw [valFrom_append, List.length_append]
      have hlt : n / radix < n := Nat.div_lt_self (by omega) (by omega)
      rw [ih (n / radix) hlt a]
      simp only [List.length_cons, List.length_nil, valFrom]
      rw [hdv (n % radix) (Nat.mod_lt n (by omega))]
      simp only [Option.getD_some]
      rw [Nat.pow_succ]
      have := Nat.div_add_mod n radix
      nlinarith

/-- Digit-string length is bounded by the power of the radix. -/
theorem digits_len (radix : Nat) (h2 : 2 ≤ radix) : ∀ (n k : Nat), n < radix ^ k →
    1 ≤ k → (digitsCore radix n n []).length ≤ k := by
  intro n
  induction n using Nat.strong_induction_on with
  | _ n ih =>
    intro k hk h1
    by_cases h : n < radix
    · rw [digits_lt radix n h]; simpa using h1
    · have hrn : radix ≤ n := by omega
      have hk2 : 2 ≤ k := by
        by_contra hcon
        have : k = 1 := by omega
        subst this
        simp at hk
        omega
      rw [digits_ge radix n h2 hrn, List.length_append]
      have hlt : n / radix < n := Nat.div_lt_self (by omega) (by omega)
      have hdiv : n / radix < radix ^ (k - 1) := by
        rw [Nat.div_lt_iff_lt_mul (by omega)]
        calc n < radix ^ k := hk
        _ = radix ^ (k - 1) * radix := by
            rw [← Nat.pow_succ]
            congr 1
            omega
      have := ih (n / radix) hlt (k - 1) hdiv (by omega)
      simp only [List.length_cons, List.length_nil]
      omega

/-- The leading digit of a positive number is not zero. -/
theorem digits_head_pos (radix : Nat) (h2 : 2 ≤ radix) : ∀ (n : Nat), 1 ≤ n →
    ∀ c, (digitsCore radix n n []).head? = some c → ∃ d, 1 ≤ d ∧ d < radix ∧ c = digitChar d := by
  intro n
  induction n using Nat.strong_induction_on with
  | _ n ih =>
    intro hn c hc
    by_cases h : n < radix
    · rw [digits_lt radix n h] at hc
      simp at hc
      exact ⟨n, hn, h, hc.symm⟩
    · rw [digits_ge radix n h2 (by omega),
        List.head?_append_of_ne_nil _ (digits_ne_nil radix (n / radix) h2)] at hc
      have hpos : 1 ≤ n / radix := by
        rw [Nat.le_div_iff_mul_le (by omega)]
        omega
      exact ih (n / radix) (Nat.div_lt_self (by omega) (by omega)) hpos c hc

/-- The inversion facts for the two radixes in use. -/
theorem digitVal_digitChar_10 : ∀ d, d < 10 → digitVal 10 (digitChar d) = some d := by
  intro d hd
  interval_cases d <;> rfl

/-- Hex inversion below 16. -/
theorem digitVal_digitChar_16 : ∀ d, d < 16 → digitVal 16 (digitChar d) = some d := by
  intro d hd
  interval_cases d <;> rfl

/-- Character classifications of digit characters below 16. -/
theorem digitChar_facts : ∀ d, d < 16 →
    isHexDigitC (digitChar d) = true ∧ digitChar d ≠ '.' ∧ digitChar d ≠ ':'
    ∧ digitChar d ≠ ',' ∧ isRustWs (digitChar d) = false
    ∧ 32 ≤ (digitChar d).toNat ∧ (digitChar d).toNat < 127 := by
  intro d hd
  interval_cases d <;> exact ⟨rfl, by decide, by decide, by decide, rfl, by decide, by decide⟩

/-- A positive number below the radix renders headed by a nonzero
digit character; zero renders as the single character `0`. -/
theorem decStr_zero : decStr 0 = ['0'] := rfl

/-- A nonzero digit below 16 does not render as `0`. -/
theorem digitChar_ne_zero : ∀ d, 1 ≤ d → d < 16 → digitChar d ≠ '0' := by
  intro d h1 h16
  interval_cases d <;> decide

/-- The head of a list is a member. -/
theorem mem_head? : ∀ (l : List Char) (c : Char), l.head? = some c → c ∈ l := by
  intro l c h
  cases l <;> simp_all

/-! ## `read_number` lemmas -/

/-- The digit loop consumes exactly a leading digit run whose value fits
the carrying type and whose digit count fits the budget. -/
theorem readNumLoop_digits (radix cap maxD : Nat) :
    ∀ (ds rest : List Char) (acc count : Nat),
    (∀ c ∈ ds, (digitVal radix c).isSome) →
    (∀ c ∈ rest.head?, digitVal radix c = none) →
    valFrom radix acc ds ≤ cap →
    count + ds.length ≤ maxD →
    1 ≤ radix →
    readNumLoop radix cap maxD acc count (ds ++ rest)
      = some (valFrom radix acc ds, count + ds.length, rest) := by
  intro ds
  induction ds with
  | nil =>
    intro rest acc count _ hrest _ _ _
    cases rest with
    | nil => rfl
    | cons c cs =>
      have hc : digitVal radix c = none := hrest c (by simp)
      simp [readNumLoop, hc, valFrom]
  | cons c cs ih =>
    intro rest acc count hds hrest hb hcnt h1
    have hd : (digitVal radix c).isSome := hds c (by simp)
    obtain ⟨d, hd⟩ := Option.isSome_iff_exists.mp hd
    have hvf : valFrom radix acc (c :: cs) = valFrom radix (acc * radix + d) cs := by
      simp [valFrom, hd]
    rw [hvf] at hb
    have hble : acc * radix + d ≤ cap := by
      have := valFrom_ge radix h1 cs (acc * radix + d)
      omega
    simp only [List.length_cons] at hcnt
    simp only [List.cons_append, readNumLoop, hd]
    rw [if_neg (by omega), if_neg (by omega)]
    rw [show cs.append rest = cs ++ rest from rfl]
    rw [ih rest (acc * radix + d) (count + 1)
      (fun x hx => hds x (by simp [hx])) hrest hb (by omega) h1]
    rw [hvf]
    have harith : count + 1 + cs.length = count + (c :: cs).length := by simp; omega
    rw [harith]

/-- The digit loop stops exactly at the first non-digit. -/
theorem readNumLoop_rest (radix cap maxD : Nat) :
    ∀ (s : List Char) (acc count v cnt : Nat) (rest : List Char),
    readNumLoop radix cap maxD acc count s = some (v, cnt, rest) →
    rest = s.dropWhile fun c => (digitVal radix c).isSome := by
  intro s
  induction s with
  | nil =>
    intro acc count v cnt rest h
    simp [readNumLoop] at h
    simp [h.2.2]
  | cons c cs ih =>
    intro acc count v cnt rest h
    cases hd : digitVal radix c with
    | none =>
      simp [readNumLoop, hd] at h
      rw [List.dropWhile_cons]
      simp [hd, h.2.2]
    | some d =>
      simp only [readNumLoop, hd] at h
      split at h
      · exact absurd h (by simp)
      · split at h
        · exact absurd h (by simp)
        · rw [List.dropWhile_cons]
          simp only [hd, Option.isSome_some, if_pos]
          exact ih _ _ _ _ _ h

/-- The loop's value never exceeds the carrying type's maximum. -/
theorem readNumLoop_le (radix cap maxD : Nat) :
    ∀ (s : List Char) (acc count v cnt : Nat) (rest : List Char), acc ≤ cap →
    readNumLoop radix cap maxD acc count s = some (v, cnt, rest) → v ≤ cap := by
  intro s
  induction s with
  | nil =>
    intro acc count v cnt rest hacc h
    simp [readNumLoop] at h
    omega
  | cons c cs ih =>
    intro acc count v cnt rest hacc h
    cases hd : digitVal radix c with
    | none =>
      simp [readNumLoop, hd] at h
      omega
    | some d =>
      simp only [readNumLoop, hd] at h
      split at h
      · exact absurd h (by simp)
      · split at h
        · exact absurd h (by simp)
        · have hle : acc * radix + d ≤ cap := by omega
          exact ih _ _ _ _ _ hle h

/-- `read_number` fails when the input does not start with a digit. -/
theorem readNumber_none_of_head (radix maxD : Nat) (az : Bool) (cap : Nat)
    (s : List Char) (h : ∀ c ∈ s.head?, digitVal radix c = none) :
    readNumber radix maxD az cap s = none := by
  cases s with
  | nil => rfl
  | cons c cs =>
    have hc : digitVal radix c = none := h c (by simp)
    simp [readNumber, readNumLoop, hc]

/-- On success, `read_number` leaves exactly the input after the leading
digit run. -/
theorem readNumber_rest (radix maxD : Nat) (az : Bool) (cap : Nat) (s : List Char)
    (v : Nat) (rest : List Char) :
    readNumber radix maxD az cap s = some (v, rest) →
    rest = s.dropWhile fun c => (digitVal radix c).isSome := by
  unfold readNumber
  cases hl : readNumLoop radix cap maxD 0 0 s with
  | none => simp
  | some t =>
    obtain ⟨v', cnt, rest'⟩ := t
    intro h
    have hr := readNumLoop_rest radix cap maxD s 0 0 v' cnt rest' hl
    by_cases h0 : cnt = 0
    · simp [h0] at h
    · by_cases hb : (!az && decide (s.head? = some '0') && decide (cnt > 1)) = true
      · simp [h0, hb] at h
      · simp [h0, hb] at h
        rw [← h.2]
        exact hr

/-- On success, `read_number`'s value fits the carrying type. -/
theorem readNumber_le (radix maxD : Nat) (az : Bool) (cap : Nat) (s : List Char)
    (v : Nat) (rest : List Char) :
    readNumber radix maxD az cap s = some (v, rest) → v ≤ cap := by
  unfold readNumber
  cases hl : readNumLoop radix cap maxD 0 0 s with
  | none => simp
  | some t =>
    obtain ⟨v', cnt, rest'⟩ := t
    intro h
    have hv := readNumLoop_le radix cap maxD s 0 0 v' cnt rest' (by omega) hl
    by_cases h0 : cnt = 0
    · simp [h0] at h
    · by_cases hb : (!az && decide (s.head? = some '0') && decide (cnt > 1)) = true
      · simp [h0, hb] at h
      · simp [h0, hb] at h
        rw [← h.1]
        exact hv

/-- Reading back a rendered hex group: `read_number(16, 4, true)` at
`u16` recovers the group in front of any non-hex-digit continuation. -/
theorem readNumber_hexStr (g : Nat) (hg : g < 65536) (rest : List Char)
    (hrest : ∀ c ∈ rest.head?, isHexDigitC c = false) :
    readNumber 16 4 true 65535 (hexStr g ++ rest) = some (g, rest) := by
  have hmem : ∀ c ∈ hexStr g, (digitVal 16 c).isSome := by
    intro c hc
    obtain ⟨d, hd, rfl⟩ := digits_mem 16 (by omega) g c hc
    rw [digitVal_digitChar_16 d hd]
    rfl
  have hrest' : ∀ c ∈ rest.head?, digitVal 16 c = none := by
    intro c hc
    have h := hrest c hc
    unfold isHexDigitC at h
    exact Option.not_isSome_iff_eq_none.mp (by simp [h])
  have hval : valFrom 16 0 (hexStr g) = g := by
    have := digits_val 16 (by omega) digitVal_digitChar_16 g 0
    simpa [hexStr] using this
  have hlen : (hexStr g).length ≤ 4 :=
    digits_len 16 (by omega) g 4 (by omega) (by omega)
  have hne : (hexStr g).length ≠ 0 := by
    have := digits_ne_nil 16 g (by omega)
    simpa [hexStr, List.length_eq_zero] using this
  unfold readNumber
  rw [readNumLoop_digits 16 65535 4 (hexStr g) rest 0 0 hmem hrest'
    (by rw [hval]; omega) (by omega) (by omega)]
  simp [hval, hne]

/-- Reading back a rendered octet: `read_number(10, 3, false)` at `u8`
recovers it in front of any non-digit continuation (the leading-zero
rejection never fires on a canonical rendering). -/
theorem readNumber_decStr (n : Nat) (hn : n < 256) (rest : List Char)
    (hrest : ∀ c ∈ rest.head?, isDecDigitC c = false) :
    readNumber 10 3 false 255 (decStr n ++ rest) = some (n, rest) := by
  have hmem : ∀ c ∈ decStr n, (digitVal 10 c).isSome := by
    intro c hc
    obtain ⟨d, hd, rfl⟩ := digits_mem 10 (by omega) n c hc
    rw [digitVal_digitChar_10 d hd]
    rfl
  have hrest' : ∀ c ∈ rest.head?, digitVal 10 c = none := by
    intro c hc
    have h := hrest c hc
    unfold isDecDigitC at h
    exact Option.not_isSome_iff_eq_none.mp (by simp [h])
  have hval : valFrom 10 0 (decStr n) = n := by
    have := digits_val 10 (by omega) digitVal_digitChar_10 n 0
    simpa [decStr] using this
  have hlen : (decStr n).length ≤ 3 :=
    digits_len 10 (by omega) n 3 (by omega) (by omega)
  have hnenil : decStr n ≠ [] := digits_ne_nil 10 n (by omega)
  have hne : (decStr n).length ≠ 0 := by simpa [List.length_eq_zero] using hnenil
  unfold readNumber
  rw [readNumLoop_digits 10 255 3 (decStr n) rest 0 0 hmem hrest'
    (by rw [hval]; omega) (by omega) (by omega)]
  by_cases hz : n = 0
  · subst hz
    simp [decStr_zero] at hval ⊢
    exact hval
  · have hpos : 1 ≤ n := by omega
    obtain ⟨c, hc⟩ : ∃ c, (decStr n).head? = some c := by
      cases hd : decStr n with
      | nil => exact absurd hd hnenil
      | cons x xs => exact ⟨x, by simp⟩
    obtain ⟨d, hd1, hd10, rfl⟩ := digits_head_pos 10 (by omega) n hpos c hc
    have hne0 : digitChar d ≠ '0' := digitChar_ne_zero d hd1 (by omega)
    have hhead : (decStr n ++ rest).head? = some (digitChar d) := by
      rw [List.head?_append_of_ne_nil _ hnenil]
      exact hc
    simp [hval, hne, hhead, hne0]

/-! ## `read_ipv4_addr` lemmas -/

/-- The IPv4 reader fails whenever the character after the leading digit
run is not a dot. -/
theorem readIpv4_none (s : List Char)
    (h : ∀ c ∈ (s.dropWhile fun c => (digitVal 10 c).isSome).head?, c ≠ '.') :
    readIpv4 s = none := by
  unfold readIpv4 readOctet
  cases hn : readNumber 10 3 false 255 s with
  | none => rfl
  | some p =>
    obtain ⟨a, s1⟩ := p
    have hrest := readNumber_rest 10 3 false 255 s a s1 hn
    cases hs1 : s1 with
    | nil => simp [readGivenChar]
    | cons c cs =>
      have hcd : c ≠ '.' := by
        apply h
        rw [← hrest, hs1]
        simp
      simp [readGivenChar, hcd]

/-- The IPv4 reader fails on dot-free input. -/
theorem readIpv4_none_of_noDot (s : List Char) (h : '.' ∉ s) : readIpv4 s = none := by
  apply readIpv4_none
  intro c hc
  have hmem : c ∈ s.dropWhile fun c => (digitVal 10 c).isSome :=
    mem_head? _ c hc
  have : c ∈ s := (List.dropWhile_sublist _).mem hmem
  intro hcd
  exact h (hcd ▸ this)

/-- The IPv4 reader fails on input headed by a colon. -/
theorem readIpv4_none_of_colon (s : List Char) (h : s.head? = some ':') :
    readIpv4 s = none := by
  apply readIpv4_none
  cases s with
  | nil => simp at h
  | cons c cs =>
    simp at h
    subst h
    rw [List.dropWhile_cons]
    simp [digitVal]

/-- Reading back a rendered IPv4 address consumes it exactly. -/
theorem readIpv4_display (a b c d : Nat) (ha : a < 256) (hb : b < 256) (hc : c < 256)
    (hd : d < 256) :
    readIpv4 (displayIpv4 a b c d) = some ((a, b, c, d), []) := by
  have hdisp : displayIpv4 a b c d
      = decStr a ++ ('.' :: (decStr b ++ ('.' :: (decStr c ++ ('.' :: decStr d))))) := by
    simp [displayIpv4]
  rw [hdisp]
  unfold readIpv4 readOctet
  rw [readNumber_decStr a ha _ (by intro x hx; simp at hx; subst hx; decide)]
  simp only [Option.some_bind]
  rw [show readGivenChar '.' ('.' :: (decStr b ++ ('.' :: (decStr c ++ ('.' :: decStr d)))))
      = some (decStr b ++ ('.' :: (decStr c ++ ('.' :: decStr d)))) from rfl]
  simp only [Option.some_bind]
  rw [readNumber_decStr b hb _ (by intro x hx; simp at hx; subst hx; decide)]
  simp only [Option.some_bind]
  rw [show readGivenChar '.' ('.' :: (decStr c ++ ('.' :: decStr d)))
      = some (decStr c ++ ('.' :: decStr d)) from rfl]
  simp only [Option.some_bind]
  rw [readNumber_decStr c hc _ (by intro x hx; simp at hx; subst hx; decide)]
  simp only [Option.some_bind]
  rw [show readGivenChar '.' ('.' :: decStr d) = some (decStr d) from rfl]
  simp only [Option.some_bind]
  rw [show decStr d = decStr d ++ [] by simp]
  rw [readNumber_decStr d hd [] (by intro x hx; simp at hx)]
  rfl

/-- C10: the claim that the telemetry key label is well-defined for every
UTF-8 key is wrong: for the key `aaaaaaaé1` (byte 8 falls inside the
two-byte `é`) the byte slice `&key[0..8]` panics, so the label
computation does not terminate normally and the handler panics on an
admitted connection. -/
theorem C10_key_label_panics :
    keyLabel (some "aaaaaaaé1".toList) = none
    ∧ (handle_websocket_connection (fun (s : Unit) _ => AcquireResult.ok s) ⟨0, 0⟩ ()
        (.v4 127 0 0 1) none (some "aaaaaaaé1".toList)).panicked = true
    ∧ (handle_websocket_connection (fun (s : Unit) _ => AcquireResult.ok s) ⟨0, 0⟩ ()
        (.v4 127 0 0 1) none (some "aaaaaaaé1".toList)).keyCounterLabel = none := by
  decide



/-! ## `read_groups` lemmas -/

/-- Characters of a rendered hex group are hex digits, in particular
neither dots nor colons. -/
theorem hexStr_mem (g : Nat) (c : Char) (hc : c ∈ hexStr g) :
    isHexDigitC c = true ∧ c ≠ '.' ∧ c ≠ ':' := by
  obtain ⟨d, hd, rfl⟩ := digits_mem 16 (by omega) g c hc
  obtain ⟨h1, h2, h3, _⟩ := digitChar_facts d hd
  exact ⟨h1, h2, h3⟩

/-- Unfolding of `joinedGroups` at a cons. -/
theorem joinedGroups_cons (g : Nat) (gs : List Nat) :
    joinedGroups (g :: gs) = ':' :: (hexStr g ++ joinedGroups gs) := by
  simp [joinedGroups]

/-- Membership in `joinedGroups`. -/
theorem mem_joinedGroups : ∀ (gs : List Nat) (c : Char), c ∈ joinedGroups gs →
    c = ':' ∨ ∃ g ∈ gs, c ∈ hexStr g := by
  intro gs
  induction gs with
  | nil => intro c hc; simp [joinedGroups] at hc
  | cons g gs ih =>
    intro c hc
    rw [joinedGroups_cons] at hc
    rcases List.mem_cons.mp hc with h | h
    · exact Or.inl h
    · rcases List.mem_append.mp h with h1 | h1
      · exact Or.inr ⟨g, by simp, h1⟩
      · rcases ih c h1 with h2 | ⟨g', hg', hcg'⟩
        · exact Or.inl h2
        · exact Or.inr ⟨g', by simp [hg'], hcg'⟩

/-- Membership in `fmtSubslice`. -/
theorem mem_fmtSubslice (gs : List Nat) (c : Char) (hc : c ∈ fmtSubslice gs) :
    c = ':' ∨ ∃ g ∈ gs, c ∈ hexStr g := by
  cases gs with
  | nil => simp [fmtSubslice] at hc
  | cons g gs =>
    simp only [fmtSubslice] at hc
    rcases List.mem_append.mp hc with h1 | h1
    · exact Or.inr ⟨g, by simp, h1⟩
    · rcases mem_joinedGroups gs c h1 with h2 | ⟨g', hg', hcg'⟩
      · exact Or.inl h2
      · exact Or.inr ⟨g', by simp [hg'], hcg'⟩

/-- No dot occurs in a joined group rendering. -/
theorem noDot_joinedGroups (gs : List Nat) : '.' ∉ joinedGroups gs := by
  intro h
  rcases mem_joinedGroups gs '.' h with h1 | ⟨g, _, hcg⟩
  · exact absurd h1 (by decide)
  · exact absurd rfl (hexStr_mem g '.' hcg).2.1

/-- No dot occurs in a subslice rendering. -/
theorem noDot_fmtSubslice (gs : List Nat) : '.' ∉ fmtSubslice gs := by
  intro h
  rcases mem_fmtSubslice gs '.' h with h1 | ⟨g, _, hcg⟩
  · exact absurd h1 (by decide)
  · exact absurd rfl (hexStr_mem g '.' hcg).2.1

/-- A group run stops on input on which both attempts of one slot
fail: empty input, or a colon followed by no hex digit and no dot. -/
theorem readGroups_stop (slots i : Nat) (acc : List Nat) (suffix : List Char)
    (hi : 1 ≤ i) (hstop : GroupStop suffix) :
    readGroups (slots + 1) i acc suffix = (acc, false, suffix) := by
  have hi0 : ¬i = 0 := by omega
  rcases hstop with rfl | ⟨s2, rfl, hhex, hdot⟩
  · by_cases h1 : 1 ≤ slots
    · simp [readGroups, h1, readSeparator, hi0, readGivenChar]
    · simp [readGroups, h1, readSeparator, hi0, readGivenChar]
  · have hv4 : readIpv4 s2 = none := readIpv4_none_of_noDot s2 hdot
    have hnum : readNumber 16 4 true 65535 s2 = none := by
      apply readNumber_none_of_head
      intro c hc
      have hcx := hhex c hc
      unfold isHexDigitC at hcx
      exact Option.not_isSome_iff_eq_none.mp (by simp [hcx])
    by_cases h1 : 1 ≤ slots
    · simp [readGroups, h1, readSeparator, hi0, readGivenChar, hv4, hnum]
    · simp [readGroups, h1, readSeparator, hi0, readGivenChar, hnum]

/-- Reading a joined group run (each group preceded by its colon)
consumes exactly those groups and stops at the suffix. -/
theorem readGroups_joined : ∀ (gs : List Nat) (slots i : Nat) (acc : List Nat)
    (suffix : List Char),
    (∀ g ∈ gs, g < 65536) → 1 ≤ i → gs.length ≤ slots →
    '.' ∉ joinedGroups gs ++ suffix →
    (gs.length = slots ∧ suffix = [] ∨ GroupStop suffix) →
    readGroups slots i acc (joinedGroups gs ++ suffix) = (acc ++ gs, false, suffix) := by
  intro gs
  induction gs with
  | nil =>
    intro slots i acc suffix _ hi _ _ hdisj
    simp only [joinedGroups, List.map_nil, List.flatten_nil, List.nil_append]
    cases slots with
    | zero => simp [readGroups]
    | succ s =>
      rcases hdisj with ⟨h0, _⟩ | hstop
      · simp at h0
      · rw [readGroups_stop s i acc suffix hi hstop]
        simp
  | cons g gs ih =>
    intro slots i acc suffix hbound hi hlen hdot hdisj
    have hi0 : ¬i = 0 := by omega
    simp only [List.length_cons] at hlen
    cases slots with
    | zero => omega
    | succ s =>
      have hstr : joinedGroups (g :: gs) ++ suffix
          = ':' :: (hexStr g ++ (joinedGroups gs ++ suffix)) := by
        rw [joinedGroups_cons]
        simp [List.append_assoc]
      have hdot' : '.' ∉ hexStr g ++ (joinedGroups gs ++ suffix) := by
        intro h
        apply hdot
        rw [hstr] at hdot ⊢
        simp only [List.mem_cons]
        right
        exact h
      have hv4 : readIpv4 (hexStr g ++ (joinedGroups gs ++ suffix)) = none :=
        readIpv4_none_of_noDot _ hdot'
      have hheadrest : ∀ c ∈ (joinedGroups gs ++ suffix).head?, isHexDigitC c = false := by
        intro c hc
        cases gs with
        | cons g' gs' =>
          rw [joinedGroups_cons] at hc
          simp at hc
          subst hc
          decide
        | nil =>
          simp only [joinedGroups, List.map_nil, List.flatten_nil, List.nil_append] at hc
          rcases hdisj with ⟨_, rfl⟩ | hstop
          · simp at hc
          · rcases hstop with rfl | ⟨s2, rfl, _, _⟩
            · simp at hc
            · simp at hc
              subst hc
              decide
      have hnum : readNumber 16 4 true 65535 (hexStr g ++ (joinedGroups gs ++ suffix))
          = some (g, joinedGroups gs ++ suffix) :=
        readNumber_hexStr g (hbound g (by simp)) _ hheadrest
      have hsep4 : readSeparator ':' i readIpv4
          (':' :: (hexStr g ++ (joinedGroups gs ++ suffix))) = none := by
        simp [readSeparator, hi0, readGivenChar, hv4]
      have hsepn : readSeparator ':' i (readNumber 16 4 true 65535)
          (':' :: (hexStr g ++ (joinedGroups gs ++ suffix)))
          = some (g, joinedGroups gs ++ suffix) := by
        simp [readSeparator, hi0, readGivenChar, hnum]
      have hrec := ih s (i + 1) (acc ++ [g]) suffix
        (fun x hx => hbound x (by simp [hx])) (by omega) (by omega)
        (by intro h
            apply hdot
            rw [hstr]
            simp only [List.mem_cons]
            right
            exact List.mem_append.mpr (Or.inr h))
        (by rcases hdisj with ⟨hl, hr⟩ | hstop
            · simp only [List.length_cons] at hl
              exact Or.inl ⟨by omega, hr⟩
            · exact Or.inr hstop)
      rw [hstr]
      by_cases h1 : 1 ≤ s
      · simp only [readGroups, if_pos h1, hsep4, hsepn]
        rw [hrec]
        simp
      · simp only [readGroups, if_neg h1, hsepn]
        rw [hrec]
        simp
/-- Evaluation of the readers on empty input. -/
theorem readIpv4_nil : readIpv4 [] = none := rfl

/-- Hex numbers fail on empty input. -/
theorem readNumber16_nil : readNumber 16 4 true 65535 [] = none := rfl

/-- Reading a subslice rendering from the start of the group run (no
leading colon) consumes exactly those groups and stops at the suffix. -/
theorem readGroups_fmt (gs : List Nat) (slots : Nat) (acc : List Nat) (suffix : List Char)
    (hbound : ∀ g ∈ gs, g < 65536) (hlen : gs.length ≤ slots)
    (hdot : '.' ∉ fmtSubslice gs ++ suffix)
    (hdisj : gs.length = slots ∧ suffix = [] ∨ GroupStop suffix) :
    readGroups slots 0 acc (fmtSubslice gs ++ suffix) = (acc ++ gs, false, suffix) := by
  cases gs with
  | nil =>
    simp only [fmtSubslice, List.nil_append]
    cases slots with
    | zero => simp [readGroups]
    | succ s =>
      rcases hdisj with ⟨h0, _⟩ | hstop
      · simp at h0
      · rcases hstop with rfl | ⟨s2, rfl, hhex, hdots2⟩
        · by_cases h1 : 1 ≤ s
          · simp [readGroups, h1, readSeparator, readIpv4_nil, readNumber16_nil]
          · simp [readGroups, h1, readSeparator, readIpv4_nil, readNumber16_nil]
        · have hv4 : readIpv4 (':' :: s2) = none := readIpv4_none_of_colon _ (by simp)
          have hnum : readNumber 16 4 true 65535 (':' :: s2) = none := by
            apply readNumber_none_of_head
            intro c hc
            simp at hc
            subst hc
            decide
          by_cases h1 : 1 ≤ s
          · simp [readGroups, h1, readSeparator, hv4, hnum]
          · simp [readGroups, h1, readSeparator, hnum]
  | cons g gs' =>
    simp only [List.length_cons] at hlen
    cases slots with
    | zero => omega
    | succ s =>
      have hstr : fmtSubslice (g :: gs') ++ suffix
          = hexStr g ++ (joinedGroups gs' ++ suffix) := by
        simp [fmtSubslice, List.append_assoc]
      have hdot' : '.' ∉ hexStr g ++ (joinedGroups gs' ++ suffix) := by
        rw [← hstr]
        exact hdot
      have hv4 : readIpv4 (hexStr g ++ (joinedGroups gs' ++ suffix)) = none :=
        readIpv4_none_of_noDot _ hdot'
      have hheadrest : ∀ c ∈ (joinedGroups gs' ++ suffix).head?, isHexDigitC c = false := by
        intro c hc
        cases gs' with
        | cons g' gs'' =>
          rw [joinedGroups_cons] at hc
          simp at hc
          subst hc
          decide
        | nil =>
          simp only [joinedGroups, List.map_nil, List.flatten_nil, List.nil_append] at hc
          rcases hdisj with ⟨_, rfl⟩ | hstop
          · simp at hc
          · rcases hstop with rfl | ⟨s2, rfl, _, _⟩
            · simp at hc
            · simp at hc
              subst hc
              decide
      have hnum : readNumber 16 4 true 65535 (hexStr g ++ (joinedGroups gs' ++ suffix))
          = some (g, joinedGroups gs' ++ suffix) :=
        readNumber_hexStr g (hbound g (by simp)) _ hheadrest
      have hsep4 : readSeparator ':' 0 readIpv4
          (hexStr g ++ (joinedGroups gs' ++ suffix)) = none := by
        simp [readSeparator, hv4]
      have hsepn : readSeparator ':' 0 (readNumber 16 4 true 65535)
          (hexStr g ++ (joinedGroups gs' ++ suffix))
          = some (g, joinedGroups gs' ++ suffix) := by
        simp [readSeparator, hnum]
      have hrec := readGroups_joined gs' s 1 (acc ++ [g]) suffix
        (fun x hx => hbound x (by simp [hx])) (by omega) (by omega)
        (by intro h
            apply hdot
            rw [hstr]
            exact List.mem_append.mpr (Or.inr h))
        (by rcases hdisj with ⟨hl, hr⟩ | hstop
            · simp only [List.length_cons] at hl
              exact Or.inl ⟨by omega, hr⟩
            · exact Or.inr hstop)
      rw [hstr]
      by_cases h1 : 1 ≤ s
      · simp only [readGroups, if_pos h1, hsep4, hsepn]
        rw [hrec]
        simp
      · simp only [readGroups, if_neg h1, hsepn]
        rw [hrec]
        simp

/-- A successful separated read is a successful plain read on some
input. -/
theorem readSeparator_elim {α : Type} (sep : Char) (i : Nat)
    (inner : List Char → Option (α × List Char)) (s : List Char) (r : α × List Char)
    (h : readSeparator sep i inner s = some r) : ∃ s', inner s' = some r := by
  unfold readSeparator at h
  by_cases hi : i = 0
  · rw [if_pos hi] at h
    exact ⟨s, h⟩
  · rw [if_neg hi] at h
    cases hg : readGivenChar sep s with
    | none => rw [hg] at h; simp at h
    | some s2 => rw [hg] at h; exact ⟨s2, h⟩

/-- An IPv4 read yields octets. -/
theorem readIpv4_le (s : List Char) (q : Nat × Nat × Nat × Nat) (rest : List Char)
    (h : readIpv4 s = some (q, rest)) :
    q.1 ≤ 255 ∧ q.2.1 ≤ 255 ∧ q.2.2.1 ≤ 255 ∧ q.2.2.2 ≤ 255 := by
  unfold readIpv4 readOctet at h
  simp only [Option.bind_eq_some, Option.map_eq_some'] at h
  obtain ⟨⟨a, s1⟩, ha, ⟨s2, _, ⟨⟨b, s3⟩, hb, ⟨s4, _, ⟨⟨c, s5⟩, hc, ⟨s6, _,
    ⟨⟨d, s7⟩, hd, hq⟩⟩⟩⟩⟩⟩⟩ := h
  have hq1 : (a, b, c, d) = q := congrArg Prod.fst hq
  subst hq1
  exact ⟨readNumber_le 10 3 false 255 s a s1 ha, readNumber_le 10 3 false 255 s2 b s3 hb,
    readNumber_le 10 3 false 255 s4 c s5 hc, readNumber_le 10 3 false 255 s6 d s7 hd⟩

/-- Groups read by `read_groups` extend the accumulator by at most the
slot count, with every new group a `u16`. -/
theorem readGroups_wf : ∀ (slots i : Nat) (acc : List Nat) (s : List Char)
    (gs : List Nat) (b : Bool) (rest : List Char),
    readGroups slots i acc s = (gs, b, rest) →
    gs.length ≤ acc.length + slots ∧ ∀ g ∈ gs, g ∈ acc ∨ g < 65536 := by
  intro slots
  induction slots with
  | zero =>
    intro i acc s gs b rest h
    simp only [readGroups, Prod.mk.injEq] at h
    obtain ⟨rfl, -, -⟩ := h
    exact ⟨by omega, fun g hg => Or.inl hg⟩
  | succ slots ih =>
    intro i acc s gs b rest h
    simp only [readGroups] at h
    cases hv4 : (if 1 ≤ slots then readSeparator ':' i readIpv4 s else none) with
    | some qr =>
      rw [hv4] at h
      obtain ⟨q, rest'⟩ := qr
      simp only [Prod.mk.injEq] at h
      obtain ⟨rfl, -, -⟩ := h
      by_cases hs1 : 1 ≤ slots
      · rw [if_pos hs1] at hv4
        obtain ⟨s', hs'⟩ := readSeparator_elim ':' i readIpv4 s (q, rest') hv4
        obtain ⟨hqa, hqb, hqc, hqd⟩ := readIpv4_le s' q rest' hs'
        refine ⟨by simp; omega, fun g hg => ?_⟩
        rcases List.mem_append.mp hg with h1 | h1
        · exact Or.inl h1
        · simp at h1
          rcases h1 with rfl | rfl
          · right; omega
          · right; omega
      · rw [if_neg hs1] at hv4
        simp at hv4
    | none =>
      rw [hv4] at h
      cases hn : readSeparator ':' i (readNumber 16 4 true 65535) s with
      | some gr =>
        rw [hn] at h
        obtain ⟨g, rest1⟩ := gr
        obtain ⟨s', hs'⟩ :=
          readSeparator_elim ':' i (readNumber 16 4 true 65535) s (g, rest1) hn
        have hgle := readNumber_le 16 4 true 65535 s' g rest1 hs'
        obtain ⟨hlen, hmem⟩ := ih (i + 1) (acc ++ [g]) rest1 gs b rest h
        refine ⟨by simp at hlen; omega, fun x hx => ?_⟩
        rcases hmem x hx with h1 | h1
        · rcases List.mem_append.mp h1 with h2 | h2
          · exact Or.inl h2
          · simp at h2
            subst h2
            right
            omega
        · exact Or.inr h1
      | none =>
        rw [hn] at h
        simp only [Prod.mk.injEq] at h
        obtain ⟨rfl, -, -⟩ := h
        exact ⟨by omega, fun g hg => Or.inl hg⟩

/-- An IPv6 read yields exactly eight `u16` groups. -/
theorem readIpv6_wf (s : List Char) (gs : List Nat) (rest : List Char)
    (h : readIpv6 s = some (gs, rest)) : gs.length = 8 ∧ ∀ g ∈ gs, g < 65536 := by
  unfold readIpv6 at h
  cases hh : readGroups 8 0 [] s with
  | mk hd t =>
    obtain ⟨hdV4, s1⟩ := t
    rw [hh] at h
    dsimp only at h
    obtain ⟨hdlen, hdmem⟩ := readGroups_wf 8 0 [] s hd hdV4 s1 hh
    simp only [List.length_nil, Nat.zero_add] at hdlen
    have hdmem' : ∀ g ∈ hd, g < 65536 := by
      intro g hg
      rcases hdmem g hg with h1 | h1
      · simp at h1
      · exact h1
    by_cases h8 : hd.length = 8
    · rw [if_pos h8] at h
      simp only [Option.some_inj, Prod.mk.injEq] at h
      obtain ⟨rfl, -⟩ := h
      exact ⟨h8, hdmem'⟩
    · rw [if_neg h8] at h
      cases hdV4 with
      | true => simp at h
      | false =>
        simp only [Bool.false_eq_true, if_false] at h
        cases hg1 : readGivenChar ':' s1 with
        | none => rw [hg1] at h; simp at h
        | some s2 =>
          rw [hg1] at h
          dsimp only at h
          cases hg2 : readGivenChar ':' s2 with
          | none => rw [hg2] at h; simp at h
          | some s3 =>
            rw [hg2] at h
            dsimp only at h
            cases htl : readGroups (8 - (hd.length + 1)) 0 [] s3 with
            | mk tl t2 =>
              obtain ⟨b2, s4⟩ := t2
              rw [htl] at h
              dsimp only at h
              obtain ⟨htlen, htmem⟩ :=
                readGroups_wf (8 - (hd.length + 1)) 0 [] s3 tl b2 s4 htl
              simp only [List.length_nil, Nat.zero_add] at htlen
              have htmem' : ∀ g ∈ tl, g < 65536 := by
                intro g hg
                rcases htmem g hg with h1 | h1
                · simp at h1
                · exact h1
              simp only [Option.some_inj, Prod.mk.injEq] at h
              obtain ⟨rfl, -⟩ := h
              constructor
              · simp only [List.length_append, List.length_replicate]
                omega
              · intro g hg
                rcases List.mem_append.mp hg with h1 | h1
                · rcases List.mem_append.mp h1 with h2 | h2
                  · exact hdmem' g h2
                  · have := List.eq_of_mem_replicate h2
                    omega
                · exact htmem' g h1

/-- A parsed address satisfies the bounds its Rust type carries. -/
theorem parseIpAddr_wf (s : List Char) (ip : IpAddr) (h : parseIpAddr s = some ip) :
    IpWf ip := by
  unfold parseIpAddr readIpAddr at h
  cases h4 : readIpv4 s with
  | some p =>
    obtain ⟨q, rest⟩ := p
    rw [h4] at h
    cases rest with
    | nil =>
      simp only [Option.some_inj] at h
      obtain ⟨hqa, hqb, hqc, hqd⟩ := readIpv4_le s q [] h4
      rw [← h]
      exact ⟨by omega, by omega, by omega, by omega⟩
    | cons c cs => simp at h
  | none =>
    rw [h4] at h
    cases h6 : readIpv6 s with
    | none => rw [h6] at h; simp at h
    | some p =>
      obtain ⟨gs, rest⟩ := p
      rw [h6] at h
      cases rest with
      | nil =>
        simp only [Option.map_some', Option.some_inj] at h
        obtain ⟨hlen, hmem⟩ := readIpv6_wf s gs [] h6
        rw [← h]
        exact ⟨hlen, hmem⟩
      | cons c cs => simp at h

/-! ## Longest-zero-run lemmas -/

/-- The scan's result names a run of zeros inside the list. -/
theorem lzrAux_spec : ∀ (xs : List Nat) (i cs cl bs bl : Nat) (l : List Nat),
    l.length = i + xs.length →
    l.drop i = xs →
    (∀ j, bs ≤ j → j < bs + bl → l.getD j 1 = 0) →
    bs + bl ≤ i →
    (∀ j, cs ≤ j → j < cs + cl → l.getD j 1 = 0) →
    (cl = 0 ∨ cs + cl = i) →
    (∀ j, (lzrAux xs i cs cl bs bl).1 ≤ j →
      j < (lzrAux xs i cs cl bs bl).1 + (lzrAux xs i cs cl bs bl).2 → l.getD j 1 = 0)
    ∧ (lzrAux xs i cs cl bs bl).1 + (lzrAux xs i cs cl bs bl).2 ≤ l.length := by
  intro xs
  induction xs with
  | nil =>
    intro i cs cl bs bl l hlen hdrop hbz hbb _ _
    simp only [lzrAux]
    exact ⟨hbz, by omega⟩
  | cons x xs ih =>
    intro i cs cl bs bl l hlen hdrop hbz hbb hcz hcc
    have hgetd : l.getD i 1 = x := by
      have h0 : l[i]? = some x := by
        have hq := List.getElem?_drop l i 0
        rw [hdrop] at hq
        simpa using hq.symm
      simp [List.getD_eq_getElem?_getD, h0]
    have hdrop' : l.drop (i + 1) = xs := by
      have hq : (l.drop i).drop 1 = l.drop (i + 1) := List.drop_drop 1 i l
      rw [hdrop] at hq
      simpa using hq.symm
    have hlen' : l.length = (i + 1) + xs.length := by
      simp only [List.length_cons] at hlen
      omega
    by_cases hx : x = 0
    · have hcz' : ∀ j, (if cl = 0 then i else cs) ≤ j →
          j < (if cl = 0 then i else cs) + (cl + 1) → l.getD j 1 = 0 := by
        intro j h1 h2
        by_cases hcl : cl = 0
        · rw [if_pos hcl] at h1 h2
          have : j = i := by omega
          rw [this, hgetd, hx]
        · rw [if_neg hcl] at h1 h2
          have hi : cs + cl = i := by
            rcases hcc with h | h
            · exact absurd h hcl
            · exact h
          by_cases hj : j < cs + cl
          · exact hcz j h1 hj
          · have : j = i := by omega
            rw [this, hgetd, hx]
      have hcc' : (if cl = 0 then i else cs) + (cl + 1) = i + 1 := by
        by_cases hcl : cl = 0
        · simp [hcl]
        · have hi : cs + cl = i := by
            rcases hcc with h | h
            · exact absurd h hcl
            · exact h
          simp [hcl]
          omega
      simp only [lzrAux, if_pos hx]
      by_cases hgt : cl + 1 > bl
      · simp only [if_pos hgt]
        exact ih (i + 1) _ (cl + 1) _ (cl + 1) l hlen' hdrop' hcz' (by omega) hcz'
          (Or.inr hcc')
      · simp only [if_neg hgt]
        exact ih (i + 1) _ (cl + 1) bs bl l hlen' hdrop' hbz (by omega) hcz'
          (Or.inr hcc')
    · simp only [lzrAux, if_neg hx]
      exact ih (i + 1) 0 0 bs bl l hlen' hdrop' hbz (by omega)
        (by intro j h1 h2; omega) (Or.inl rfl)

/-- The longest zero run is a run of zeros inside the list. -/
theorem longestZeroRun_spec (l : List Nat) :
    (∀ j, (longestZeroRun l).1 ≤ j →
      j < (longestZeroRun l).1 + (longestZeroRun l).2 → l.getD j 1 = 0)
    ∧ (longestZeroRun l).1 + (longestZeroRun l).2 ≤ l.length := by
  have := lzrAux_spec l 0 0 0 0 0 l (by simp) (by simp)
    (by intro j h1 h2; omega) (by omega) (by intro j h1 h2; omega) (Or.inl rfl)
  exact this

/-- A list is its part before a zero run, the zeros, and the part after. -/
theorem zeros_reconstruct (l : List Nat) (st ln : Nat)
    (hz : ∀ j, st ≤ j → j < st + ln → l.getD j 1 = 0)
    (hb : st + ln ≤ l.length) :
    l = l.take st ++ List.replicate ln 0 ++ l.drop (st + ln) := by
  have h4 : (l.drop st).take ln = List.replicate ln 0 := by
    rw [List.eq_replicate_iff]
    constructor
    · simp only [List.length_take, List.length_drop]
      omega
    · intro b hb'
      obtain ⟨k, hk⟩ := List.mem_iff_getElem?.mp hb'
      obtain ⟨hlt, -⟩ := List.getElem?_eq_some.mp hk
      have hk' : k < ln := by
        simp only [List.length_take, List.length_drop] at hlt
        omega
      have ht : ((l.drop st).take ln)[k]? = (l.drop st)[k]? := by
        rw [List.getElem?_take, if_pos hk']
      have hd : (l.drop st)[k]? = l[st + k]? := List.getElem?_drop ..
      have h7 : l.getD (st + k) 1 = 0 := hz (st + k) (by omega) (by omega)
      rw [List.getD_eq_getElem?_getD, ← hd, ← ht, hk] at h7
      simpa using h7
  have h2 : l.drop st = List.replicate ln 0 ++ l.drop (st + ln) := by
    have h3 : (l.drop st).drop ln = l.drop (st + ln) := by
      rw [List.drop_drop]
    rw [← h4, ← h3]
    exact (List.take_append_drop ln (l.drop st)).symm
  calc l = l.take st ++ l.drop st := (List.take_append_drop st l).symm
  _ = l.take st ++ (List.replicate ln 0 ++ l.drop (st + ln)) := by rw [← h2]
  _ = l.take st ++ List.replicate ln 0 ++ l.drop (st + ln) := by
      rw [List.append_assoc]

/-! ## Parsing rendered IPv6 addresses -/

/-- A group run stops immediately on a leading colon (from the start of
a run, with no separator yet expected). -/
theorem readGroups_colon (slots : Nat) (acc : List Nat) (t : List Char) :
    readGroups (slots + 1) 0 acc (':' :: t) = (acc, false, ':' :: t) := by
  have hv4 : readIpv4 (':' :: t) = none := readIpv4_none_of_colon _ (by simp)
  have hnum : readNumber 16 4 true 65535 (':' :: t) = none := by
    apply readNumber_none_of_head
    intro c hc
    simp at hc
    subst hc
    decide
  by_cases h1 : 1 ≤ slots
  · simp [readGroups, h1, readSeparator, hv4, hnum]
  · simp [readGroups, h1, readSeparator, hnum]

/-- Parsing the rendering of an IPv4-mapped address recovers its
groups. -/
theorem readIpv6_mapped (g h : Nat) (hg : g < 65536) (hh : h < 65536) :
    readIpv6 ([':', ':', 'f', 'f', 'f', 'f', ':']
        ++ displayIpv4 (g / 256) (g % 256) (h / 256) (h % 256))
      = some ([0, 0, 0, 0, 0, 65535, g, h], []) := by
  have hb1 : g / 256 < 256 := Nat.div_lt_of_lt_mul (by omega)
  have hb2 : g % 256 < 256 := Nat.mod_lt _ (by omega)
  have hb3 : h / 256 < 256 := Nat.div_lt_of_lt_mul (by omega)
  have hb4 : h % 256 < 256 := Nat.mod_lt _ (by omega)
  have hv4d := readIpv4_display (g / 256) (g % 256) (h / 256) (h % 256) hb1 hb2 hb3 hb4
  have hquad : ('f' :: 'f' :: 'f' :: 'f'
        :: (':' :: displayIpv4 (g / 256) (g % 256) (h / 256) (h % 256)))
      = hexStr 65535 ++ (':' :: displayIpv4 (g / 256) (g % 256) (h / 256) (h % 256)) := by
    rw [show hexStr 65535 = ['f', 'f', 'f', 'f'] from by decide]
    rfl
  have hv4fail : readIpv4 ('f' :: 'f' :: 'f' :: 'f'
      :: (':' :: displayIpv4 (g / 256) (g % 256) (h / 256) (h % 256))) = none := by
    apply readIpv4_none
    intro c hc
    have hf : (digitVal 10 'f').isSome = false := by decide
    simp only [List.dropWhile_cons, hf, Bool.false_eq_true, if_false] at hc
    simp at hc
    subst hc
    decide
  have hnum : readNumber 16 4 true 65535 ('f' :: 'f' :: 'f' :: 'f'
      :: (':' :: displayIpv4 (g / 256) (g % 256) (h / 256) (h % 256)))
      = some (65535, ':' :: displayIpv4 (g / 256) (g % 256) (h / 256) (h % 256)) := by
    rw [hquad]
    apply readNumber_hexStr 65535 (by omega)
    intro c hc
    simp at hc
    subst hc
    decide
  have htail : readGroups 7 0 []
      ('f' :: 'f' :: 'f' :: 'f' :: (':' :: displayIpv4 (g / 256) (g % 256) (h / 256) (h % 256)))
      = ([65535, g, h], true, []) := by
    have hgd : g / 256 * 256 + g % 256 = g := by
      rw [Nat.mul_comm]
      exact Nat.div_add_mod g 256
    have hhd : h / 256 * 256 + h % 256 = h := by
      rw [Nat.mul_comm]
      exact Nat.div_add_mod h 256
    simp [readGroups, readSeparator, readGivenChar, hv4fail, hnum, hv4d, hgd, hhd]
  have hhead : readGroups 8 0 []
      ([':', ':', 'f', 'f', 'f', 'f', ':']
        ++ displayIpv4 (g / 256) (g % 256) (h / 256) (h % 256))
      = ([], false, [':', ':', 'f', 'f', 'f', 'f', ':']
        ++ displayIpv4 (g / 256) (g % 256) (h / 256) (h % 256)) := by
    rw [show (8 : Nat) = 7 + 1 from rfl]
    exact readGroups_colon 7 [] _
  unfold readIpv6
  rw [hhead]
  dsimp only
  simp [readGivenChar, htail]

/-- Parsing the full (uncompressed) rendering of eight groups recovers
them. -/
theorem readIpv6_full (segs : List Nat) (hlen : segs.length = 8)
    (hmem : ∀ g ∈ segs, g < 65536) :
    readIpv6 (fmtSubslice segs) = some (segs, []) := by
  have hgrp : readGroups 8 0 [] (fmtSubslice segs) = (segs, false, []) := by
    have := readGroups_fmt segs 8 [] [] hmem (by omega)
      (by simpa using noDot_fmtSubslice segs) (Or.inl ⟨hlen, rfl⟩)
    simpa using this
  unfold readIpv6
  rw [hgrp]
  dsimp only
  rw [if_pos hlen]

/-- Parsing the compressed rendering (longest zero run as `::`) recovers
the eight groups. -/
theorem readIpv6_compressed (segs : List Nat) (hlen : segs.length = 8)
    (hmem : ∀ g ∈ segs, g < 65536) (hz2 : 1 < (longestZeroRun segs).2) :
    readIpv6 (fmtSubslice (segs.take (longestZeroRun segs).1) ++ [':', ':']
      ++ fmtSubslice (segs.drop ((longestZeroRun segs).1 + (longestZeroRun segs).2)))
      = some (segs, []) := by
  obtain ⟨hzero, hbound⟩ := longestZeroRun_spec segs
  rw [hlen] at hbound
  have hst6 : (longestZeroRun segs).1 ≤ 6 := by omega
  have hprelen : (segs.take (longestZeroRun segs).1).length = (longestZeroRun segs).1 := by
    simp only [List.length_take]
    omega
  have hpostlen : (segs.drop ((longestZeroRun segs).1 + (longestZeroRun segs).2)).length
      = 8 - ((longestZeroRun segs).1 + (longestZeroRun segs).2) := by
    simp only [List.length_drop]
    omega
  have hpremem : ∀ g ∈ segs.take (longestZeroRun segs).1, g < 65536 := by
    intro g hg
    exact hmem g ((List.take_sublist _ _).mem hg)
  have hpostmem : ∀ g ∈ segs.drop ((longestZeroRun segs).1 + (longestZeroRun segs).2),
      g < 65536 := by
    intro g hg
    exact hmem g ((List.drop_sublist _ _).mem hg)
  have hassoc : fmtSubslice (segs.take (longestZeroRun segs).1) ++ [':', ':']
      ++ fmtSubslice (segs.drop ((longestZeroRun segs).1 + (longestZeroRun segs).2))
      = fmtSubslice (segs.take (longestZeroRun segs).1)
        ++ (':' :: ':' :: fmtSubslice (segs.drop ((longestZeroRun segs).1
          + (longestZeroRun segs).2))) := by
    simp
  have hstop : GroupStop (':' :: ':' :: fmtSubslice (segs.drop ((longestZeroRun segs).1
      + (longestZeroRun segs).2))) := by
    right
    refine ⟨_, rfl, ?_, ?_⟩
    · intro c hc
      simp at hc
      subst hc
      decide
    · intro hdm
      rcases List.mem_cons.mp hdm with h1 | h1
      · exact absurd h1 (by decide)
      · exact noDot_fmtSubslice _ h1
  have hdothead : '.' ∉ fmtSubslice (segs.take (longestZeroRun segs).1)
      ++ (':' :: ':' :: fmtSubslice (segs.drop ((longestZeroRun segs).1
        + (longestZeroRun segs).2))) := by
    intro hdm
    rcases List.mem_append.mp hdm with h1 | h1
    · exact noDot_fmtSubslice _ h1
    · rcases List.mem_cons.mp h1 with h2 | h2
      · exact absurd h2 (by decide)
      · rcases List.mem_cons.mp h2 with h3 | h3
        · exact absurd h3 (by decide)
        · exact noDot_fmtSubslice _ h3
  have hhead : readGroups 8 0 []
      (fmtSubslice (segs.take (longestZeroRun segs).1)
        ++ (':' :: ':' :: fmtSubslice (segs.drop ((longestZeroRun segs).1
          + (longestZeroRun segs).2))))
      = (segs.take (longestZeroRun segs).1, false,
        ':' :: ':' :: fmtSubslice (segs.drop ((longestZeroRun segs).1
          + (longestZeroRun segs).2))) := by
    have := readGroups_fmt (segs.take (longestZeroRun segs).1) 8 []
      (':' :: ':' :: fmtSubslice (segs.drop ((longestZeroRun segs).1
        + (longestZeroRun segs).2)))
      hpremem (by omega) hdothead (Or.inr hstop)
    simpa using this
  have htail : readGroups (8 - ((segs.take (longestZeroRun segs).1).length + 1)) 0 []
      (fmtSubslice (segs.drop ((longestZeroRun segs).1 + (longestZeroRun segs).2)))
      = (segs.drop ((longestZeroRun segs).1 + (longestZeroRun segs).2), false, []) := by
    have := readGroups_fmt (segs.drop ((longestZeroRun segs).1 + (longestZeroRun segs).2))
      (8 - ((segs.take (longestZeroRun segs).1).length + 1)) [] []
      hpostmem (by rw [hprelen, hpostlen]; omega)
      (by simpa using noDot_fmtSubslice _) (Or.inr (Or.inl rfl))
    simpa using this
  rw [hassoc]
  unfold readIpv6
  rw [hhead]
  dsimp only
  rw [if_neg (by omega)]
  simp only [Bool.false_eq_true, if_false]
  rw [show readGivenChar ':' (':' :: ':' :: fmtSubslice (segs.drop ((longestZeroRun segs).1
      + (longestZeroRun segs).2)))
    = some (':' :: fmtSubslice (segs.drop ((longestZeroRun segs).1
      + (longestZeroRun segs).2))) from rfl]
  dsimp only
  rw [show readGivenChar ':' (':' :: fmtSubslice (segs.drop ((longestZeroRun segs).1
      + (longestZeroRun segs).2)))
    = some (fmtSubslice (segs.drop ((longestZeroRun segs).1
      + (longestZeroRun segs).2))) from rfl]
  dsimp only
  rw [htail]
  dsimp only
  rw [Option.some_inj, Prod.mk.injEq]
  refine ⟨?_, rfl⟩
  rw [hprelen, hpostlen]
  have hrepl : 8 - (longestZeroRun segs).1 - (8 - ((longestZeroRun segs).1
      + (longestZeroRun segs).2)) = (longestZeroRun segs).2 := by omega
  rw [hrepl]
  exact (zeros_reconstruct segs (longestZeroRun segs).1 (longestZeroRun segs).2 hzero
    (by omega)).symm

/-- Round trip: parsing any well-formed address's rendering recovers the
address (the printer's output is always accepted by the parser). -/
theorem parseIpAddr_display (ip : IpAddr) (hwf : IpWf ip) :
    parseIpAddr (displayIpAddr ip) = some ip := by
  cases ip with
  | v4 a b c d =>
    obtain ⟨ha, hb, hc, hd⟩ := hwf
    have h4 := readIpv4_display a b c d ha hb hc hd
    unfold parseIpAddr readIpAddr displayIpAddr
    rw [h4]
  | v6 segs =>
    obtain ⟨hlen, hmem⟩ := hwf
    show parseIpAddr (displayIpv6 segs) = some (.v6 segs)
    unfold displayIpv6
    by_cases h1 : segs = List.replicate 8 0
    · rw [if_pos h1, h1]
      decide
    · rw [if_neg h1]
      by_cases h2 : segs = [0, 0, 0, 0, 0, 0, 0, 1]
      · rw [if_pos h2, h2]
        decide
      · rw [if_neg h2]
        by_cases h3 : segs.take 6 = [0, 0, 0, 0, 0, 65535]
        · rw [if_pos h3]
          have h8 : ∃ a0 a1 a2 a3 a4 a5 a6 a7,
              segs = [a0, a1, a2, a3, a4, a5, a6, a7] := by
            rcases segs with _ | ⟨a0, segs⟩
            · simp at hlen
            rcases segs with _ | ⟨a1, segs⟩
            · simp at hlen
            rcases segs with _ | ⟨a2, segs⟩
            · simp at hlen
            rcases segs with _ | ⟨a3, segs⟩
            · simp at hlen
            rcases segs with _ | ⟨a4, segs⟩
            · simp at hlen
            rcases segs with _ | ⟨a5, segs⟩
            · simp at hlen
            rcases segs with _ | ⟨a6, segs⟩
            · simp at hlen
            rcases segs with _ | ⟨a7, segs⟩
            · simp at hlen
            rcases segs with _ | ⟨a8, segs⟩
            · exact ⟨a0, a1, a2, a3, a4, a5, a6, a7, rfl⟩
            · simp at hlen
          obtain ⟨a0, a1, a2, a3, a4, a5, a6, a7, rfl⟩ := h8
          simp only [List.take] at h3
          obtain ⟨rfl, rfl, rfl, rfl, rfl, rfl⟩ : a0 = 0 ∧ a1 = 0 ∧ a2 = 0 ∧ a3 = 0
              ∧ a4 = 0 ∧ a5 = 65535 := by
            injection h3 with e0 h3
            injection h3 with e1 h3
            injection h3 with e2 h3
            injection h3 with e3 h3
            injection h3 with e4 h3
            injection h3 with e5 h3
            exact ⟨e0, e1, e2, e3, e4, e5⟩
          have hg6 : ([0, 0, 0, 0, 0, 65535, a6, a7] : List Nat).getD 6 0 = a6 := rfl
          have hg7 : ([0, 0, 0, 0, 0, 65535, a6, a7] : List Nat).getD 7 0 = a7 := rfl
          rw [hg6, hg7]
          unfold parseIpAddr readIpAddr
          rw [readIpv4_none_of_colon _ (by simp),
            readIpv6_mapped a6 a7 (hmem a6 (by simp)) (hmem a7 (by simp))]
          rfl
        · rw [if_neg h3]
          by_cases h4 : 1 < (longestZeroRun segs).2
          · rw [if_pos h4]
            have hdot : '.' ∉ fmtSubslice (segs.take (longestZeroRun segs).1) ++ [':', ':']
                ++ fmtSubslice (segs.drop ((longestZeroRun segs).1
                  + (longestZeroRun segs).2)) := by
              intro hd
              rcases List.mem_append.mp hd with hx | hx
              · rcases List.mem_append.mp hx with hy | hy
                · exact noDot_fmtSubslice _ hy
                · simp at hy
              · exact noDot_fmtSubslice _ hx
            unfold parseIpAddr readIpAddr
            rw [readIpv4_none_of_noDot _ hdot, readIpv6_compressed segs hlen hmem h4]
            rfl
          · rw [if_neg h4]
            unfold parseIpAddr readIpAddr
            rw [readIpv4_none_of_noDot _ (noDot_fmtSubslice segs),
              readIpv6_full segs hlen hmem]
            rfl

/-! ## The extraction chain on rendered addresses -/

/-- Characters of a rendered IPv4 address. -/
theorem mem_displayIpv4 (a b c d : Nat) (x : Char) (hx : x ∈ displayIpv4 a b c d) :
    (∃ e, e < 16 ∧ x = digitChar e) ∨ x = '.' := by
  have hdec : ∀ (n : Nat) (y : Char), y ∈ decStr n → ∃ e, e < 16 ∧ y = digitChar e := by
    intro n y hy
    obtain ⟨e, he, rfl⟩ := digits_mem 10 (by omega) n y hy
    exact ⟨e, by omega, rfl⟩
  simp only [displayIpv4, List.mem_append, List.mem_singleton] at hx
  rcases hx with ((((((h | h) | h) | h) | h) | h) | h)
  all_goals first
    | exact Or.inr h
    | exact Or.inl (hdec _ _ h)

/-- Characters of a rendered IPv6 address. -/
theorem mem_displayIpv6 (segs : List Nat) (x : Char) (hx : x ∈ displayIpv6 segs) :
    (∃ e, e < 16 ∧ x = digitChar e) ∨ x = '.' ∨ x = ':' := by
  have hhex : ∀ (g : Nat) (y : Char), y ∈ hexStr g → ∃ e, e < 16 ∧ y = digitChar e := by
    intro g y hy
    exact digits_mem 16 (by omega) g y hy
  have hfmt : ∀ (gs : List Nat) (y : Char), y ∈ fmtSubslice gs →
      (∃ e, e < 16 ∧ y = digitChar e) ∨ y = '.' ∨ y = ':' := by
    intro gs y hy
    rcases mem_fmtSubslice gs y hy with h | ⟨g, _, hg⟩
    · exact Or.inr (Or.inr h)
    · exact Or.inl (hhex g y hg)
  unfold displayIpv6 at hx
  split_ifs at hx
  · simp at hx
    exact Or.inr (Or.inr hx)
  · simp at hx
    rcases hx with h | h
    · exact Or.inr (Or.inr h)
    · exact Or.inl ⟨1, by omega, by rw [h]; rfl⟩
  · rcases List.mem_append.mp hx with h | h
    · have hcases : x = ':' ∨ x = 'f' := by
        simp at h
        tauto
      rcases hcases with hc | hc
      · exact Or.inr (Or.inr hc)
      · exact Or.inl ⟨15, by omega, by rw [hc]; rfl⟩
    · rcases mem_displayIpv4 _ _ _ _ x h with h1 | h1
      · exact Or.inl h1
      · exact Or.inr (Or.inl h1)
  · rcases List.mem_append.mp hx with h | h
    · rcases List.mem_append.mp h with h1 | h1
      · exact hfmt _ x h1
      · simp at h1
        exact Or.inr (Or.inr h1)
    · exact hfmt _ x h
  · exact hfmt _ x hx

/-- Every character of a rendered address is visible ASCII, not a comma
and not whitespace. -/
theorem display_good (ip : IpAddr) (x : Char) (hx : x ∈ displayIpAddr ip) :
    (32 ≤ x.toNat ∧ x.toNat < 127) ∧ x ≠ ',' ∧ isRustWs x = false := by
  have hcases : (∃ e, e < 16 ∧ x = digitChar e) ∨ x = '.' ∨ x = ':' := by
    cases ip with
    | v4 a b c d =>
      rcases mem_displayIpv4 a b c d x hx with h | h
      · exact Or.inl h
      · exact Or.inr (Or.inl h)
    | v6 segs => exact mem_displayIpv6 segs x hx
  rcases hcases with ⟨e, he, rfl⟩ | rfl | rfl
  · obtain ⟨-, -, -, h4, h5, h6, h7⟩ := digitChar_facts e he
    exact ⟨⟨h6, h7⟩, h4, h5⟩
  · exact ⟨by decide, by decide, by decide⟩
  · exact ⟨by decide, by decide, by decide⟩

/-- A rendered well-formed address is never the empty string. -/
theorem displayIpAddr_ne_nil (ip : IpAddr) (hwf : IpWf ip) : displayIpAddr ip ≠ [] := by
  cases ip with
  | v4 a b c d =>
    intro h
    unfold displayIpAddr displayIpv4 at h
    simp [List.append_eq_nil] at h
  | v6 segs =>
    obtain ⟨hlen, -⟩ := hwf
    intro h
    rw [show displayIpAddr (.v6 segs) = displayIpv6 segs from rfl] at h
    unfold displayIpv6 at h
    split_ifs at h
    all_goals try simp at h
    rcases segs with _ | ⟨a0, segs⟩
    · simp at hlen
    · simp only [fmtSubslice, List.append_eq_nil] at h
      exact digits_ne_nil 16 a0 (by omega) h.1

/-- Dropping while a predicate fails everywhere keeps the list. -/
theorem dropWhile_eq_self_of_all (p : Char → Bool) (l : List Char)
    (h : ∀ c ∈ l, p c = false) : l.dropWhile p = l := by
  cases l with
  | nil => rfl
  | cons c cs =>
    rw [List.dropWhile_cons]
    simp [h c (by simp)]

/-- Trimming a string with no whitespace is the identity. -/
theorem trimStr_eq_self (s : List Char) (h : ∀ c ∈ s, isRustWs c = false) :
    trimStr s = s := by
  unfold trimStr
  rw [dropWhile_eq_self_of_all _ s h,
    dropWhile_eq_self_of_all _ s.reverse (by intro c hc; exact h c (List.mem_reverse.mp hc)),
    List.reverse_reverse]

/-- Splitting a comma-free string yields that single piece. -/
theorem splitOnComma_single : ∀ (s : List Char), ',' ∉ s → splitOnComma s = [s] := by
  intro s
  induction s with
  | nil => intro _; rfl
  | cons c cs ih =>
    intro h
    have hc : ¬c = ',' := by
      intro hc
      exact h (by simp [hc])
    have hcs : ',' ∉ cs := fun hx => h (by simp [hx])
    simp only [splitOnComma]
    rw [if_neg hc, ih hcs]

/-- Header bytes built from visible characters read back as the same
characters. -/
theorem headerToStr_strToBytes (s : List Char)
    (h : ∀ c ∈ s, 32 ≤ c.toNat ∧ c.toNat < 127) :
    headerToStr (strToBytes s) = some s := by
  unfold headerToStr strToBytes
  rw [if_pos]
  · rw [List.map_map]
    have : ∀ c ∈ s, (Char.ofNat ∘ Char.toNat) c = id c := by
      intro c _
      simp [Char.ofNat_toNat]
    rw [List.map_congr_left this, List.map_id]
  · rw [List.all_eq_true]
    intro b hb
    obtain ⟨c, hc, rfl⟩ := List.mem_map.mp hb
    obtain ⟨h1, h2⟩ := h c hc
    simp
    omega

/-- Extraction always returns a well-formed address when the fallback is
well-formed: it yields either the fallback or a parser output. -/
theorem extract_addr_wf (h : List Nat) (fb : IpAddr) (hwf : IpWf fb) :
    IpWf (extract_addr h fb) := by
  unfold extract_addr
  by_cases he : h.isEmpty = true
  · rw [if_pos he]
    exact hwf
  · rw [if_neg he]
    cases hs : headerToStr h with
    | none => exact hwf
    | some s =>
      dsimp only
      cases hl : ((splitOnComma s).map trimStr).getLast? with
      | none => exact hwf
      | some raw =>
        dsimp only
        cases hp : parseIpAddr raw with
        | none => simpa [hp] using hwf
        | some ip => simpa [hp] using parseIpAddr_wf raw ip hp

/-- Extracting from a header that carries exactly one rendered
well-formed address yields that address: the rendering is nonempty,
readable, comma-free, whitespace-free and parses back. -/
theorem extract_addr_display (r fb : IpAddr) (hwf : IpWf r) :
    extract_addr (strToBytes (displayIpAddr r)) fb = r := by
  have hvis : ∀ c ∈ displayIpAddr r, 32 ≤ c.toNat ∧ c.toNat < 127 := by
    intro c hc
    exact (display_good r c hc).1
  have hne : displayIpAddr r ≠ [] := displayIpAddr_ne_nil r hwf
  have hbne : strToBytes (displayIpAddr r) ≠ [] := by
    unfold strToBytes
    simp [hne]
  have hh2s : headerToStr (strToBytes (displayIpAddr r)) = some (displayIpAddr r) :=
    headerToStr_strToBytes _ hvis
  have hnocomma : ',' ∉ displayIpAddr r := by
    intro hc
    exact (display_good r ',' hc).2.1 rfl
  have hsplit : splitOnComma (displayIpAddr r) = [displayIpAddr r] :=
    splitOnComma_single _ hnocomma
  have htrim : trimStr (displayIpAddr r) = displayIpAddr r :=
    trimStr_eq_self _ (fun c hc => (display_good r c hc).2.2)
  have hparse : parseIpAddr (displayIpAddr r) = some r := parseIpAddr_display r hwf
  unfold extract_addr
  rw [if_neg (fun hcon => hbne (by simpa using hcon))]
  rw [hh2s]
  dsimp only
  rw [hsplit]
  simp only [List.map_cons, List.map_nil, htrim]
  rw [show ([displayIpAddr r] : List (List Char)).getLast? = some (displayIpAddr r)
    from rfl]
  dsimp only
  rw [hparse]
  rfl

/-- C7: IP extraction is idempotent on single-element headers: rendering
the extracted address back to a header (with any well-formed fallback)
and extracting again yields the same address, i.e.
extract(extract(h)) = extract(h). A single-element header is one without
a comma byte (44). -/
theorem C7_extract_idempotent : ∀ (h : List Nat) (fb : IpAddr), IpWf fb →
    (∀ b ∈ h, b ≠ 44) →
    extract_addr (strToBytes (displayIpAddr (extract_addr h fb))) fb
      = extract_addr h fb := by
  intro h fb hwf hsingle
  exact extract_addr_display (extract_addr h fb) fb (extract_addr_wf h fb hwf)

/-- C7 witness: the header `129.1.1.1` with fallback `127.0.0.1`
extracts to `129.1.1.1`, and extracting its rendering again gives the
same address. -/
theorem C7_extract_idempotent_witness :
    IpWf (.v4 127 0 0 1)
    ∧ (∀ b ∈ strToBytes "129.1.1.1".toList, b ≠ 44)
    ∧ extract_addr (strToBytes (displayIpAddr
        (extract_addr (strToBytes "129.1.1.1".toList) (.v4 127 0 0 1)))) (.v4 127 0 0 1)
      = extract_addr (strToBytes "129.1.1.1".toList) (.v4 127 0 0 1) :=
  ⟨by decide, by decide,
    C7_extract_idempotent (strToBytes "129.1.1.1".toList) (.v4 127 0 0 1)
      (by decide) (by decide)⟩

end WsProxy
